import Mathlib

/-!
Verification development for the `simple-emotion-styles` source-rewriting
rule (file `src/rules/simple-emotion-styles.ts`).

The rule walks a parsed expression tree, classifies style-list items, and
proposes textual edits (token removals/replacements) that simplify css
style expressions.  We shallowly embed:

* the AST fragments the rule inspects (`Expr`, `ObjectLiteralElement`,
  `Callee`, `JSXAttr`),
* the host's token stream and token-query primitives (`SourceCode`,
  `getFirstToken`, `getLastToken`, `getTokenAfter`, `getFirstTokenBetween`),
* the conflict detector (`hasNonComputedName`, `allHaveNonComputedNames`,
  `noPropertyConflicts`),
* the edit recipes (the `fix` generators, as pure functions returning
  `List Edit`), and
* the list simplifier and the two visitor entry points (as pure functions
  returning `List Report`).

JavaScript strict equality (`===`) on literal key values is modelled by
equality on the `JsValue` carrier: values of distinct primitive types are
never equal, strings compare as strings, numeric literals are modelled by
integers (the claims under study only involve integral numeric keys).
-/

namespace EmotionStyles

/-- Half-open source span `[start, stop)`, in character offsets. -/
structure Range where
  start : Nat
  stop : Nat
deriving DecidableEq, Repr

/-- Two spans are disjoint when one ends before the other begins. -/
def Range.disj (a b : Range) : Prop := a.stop ≤ b.start ∨ b.stop ≤ a.start

instance : DecidablePred fun p : Range × Range => p.1.disj p.2 := fun _ => by
  unfold Range.disj; infer_instance

instance (a b : Range) : Decidable (a.disj b) := by
  unfold Range.disj; infer_instance

theorem Range.disj_symm {a b : Range} (h : a.disj b) : b.disj a := h.symm

/-- Token type tags used by the rule's token filters. -/
inductive TokType where
  | punctuator
  | identifier
  | otherTok
deriving DecidableEq, Repr

/-- Token values the rule's filters compare against (`(`, `)`, `[`, `]`,
braces, `,`); every other source token is `otherVal`. -/
inductive TokValue where
  | lparen
  | rparen
  | lbrack
  | rbrack
  | lbrace
  | rbrace
  | comma
  | otherVal
deriving DecidableEq, Repr

/-- A lexed token: a span plus its type and (abstracted) text value. -/
structure Token where
  range : Range
  ttype : TokType
  value : TokValue
deriving DecidableEq, Repr

/-- `token.type === Punctuator && token.value === v`. -/
def isPunctValue (v : TokValue) (t : Token) : Bool :=
  t.ttype == TokType.punctuator && t.value == v

/-- `token.type === Punctuator` (any value), as used by `getCommaAfter`. -/
def isPunctuator (t : Token) : Bool :=
  t.ttype == TokType.punctuator

/-- The host's source snapshot: the ordered token stream. -/
structure SourceCode where
  tokens : List Token

/-- Well-formed tokenization: spans are nonempty, ordered by start offset,
and pairwise disjoint. -/
def SourceCode.WF (sc : SourceCode) : Prop :=
  (∀ t ∈ sc.tokens, t.range.start < t.range.stop) ∧
  sc.tokens.Pairwise (fun a b => a.range.start ≤ b.range.start) ∧
  sc.tokens.Pairwise (fun a b => a.range.disj b.range)

instance (sc : SourceCode) : Decidable sc.WF := by
  unfold SourceCode.WF; infer_instance

/-- Host token query: nearest token starting at or after the end of `r`
that satisfies the filter (`sourceCode.getTokenAfter(node, {filter})`). -/
def getTokenAfter (sc : SourceCode) (r : Range) (f : Token → Bool) : Option Token :=
  (sc.tokens.filter fun t => decide (r.stop ≤ t.range.start) && f t).head?

/-- Host token query: first token lying inside `r` that satisfies the
filter (`sourceCode.getFirstToken(node, {filter})`). -/
def getFirstToken (sc : SourceCode) (r : Range) (f : Token → Bool) : Option Token :=
  (sc.tokens.filter fun t =>
    decide (r.start ≤ t.range.start) && decide (t.range.stop ≤ r.stop) && f t).head?

/-- Host token query: last token lying inside `r` that satisfies the
filter (`sourceCode.getLastToken(node, {filter})`). -/
def getLastToken (sc : SourceCode) (r : Range) (f : Token → Bool) : Option Token :=
  (sc.tokens.filter fun t =>
    decide (r.start ≤ t.range.start) && decide (t.range.stop ≤ r.stop) && f t).getLast?

/-- Host token query: first token strictly between spans `a` and `b`
satisfying the filter (`sourceCode.getFirstTokenBetween(a, b, {filter})`). -/
def getFirstTokenBetween (sc : SourceCode) (a b : Range) (f : Token → Bool) :
    Option Token :=
  (sc.tokens.filter fun t =>
    decide (a.stop ≤ t.range.start) && decide (t.range.stop ≤ b.start) && f t).head?

/-- Carrier for JavaScript literal values appearing as property keys.
Strict equality `===` between values of distinct primitive types is false,
which the constructor-wise equality of this type reproduces.  Numeric
literals are modelled by integers. -/
inductive JsValue where
  | str (s : String)
  | num (n : Int)
  | bool (b : Bool)
  | nullV
deriving DecidableEq, Repr

/-- A non-computed property key: either a `Literal` node (carrying its
value) or an `Identifier` node (carrying its name). -/
inductive KeyNode where
  | litKey (v : JsValue)
  | identKey (name : String)
deriving DecidableEq, Repr

/-- `a.key.type === Literal ? a.key.value : a.key.name` — the value the
source compares with `===`.  An identifier name is a JS string, so it can
collide with an equal string literal. -/
def effectiveKey : KeyNode → JsValue
  | .litKey v => v
  | .identKey n => .str n

/-- An element of an `ObjectExpression`'s `properties` array: a `Property`
(with its `computed` flag and key) or a `SpreadElement`. -/
inductive ObjectLiteralElement where
  | property (range : Range) (computed : Bool) (key : KeyNode)
  | spreadElement (range : Range)
deriving DecidableEq, Repr

/-- Source span of an object-literal element. -/
def oleRange : ObjectLiteralElement → Range
  | .property r _ _ => r
  | .spreadElement r => r

/-- The effective key of a `Property` element; `none` for a spread (whose
key set is statically unknowable). -/
def elementKey : ObjectLiteralElement → Option JsValue
  | .property _ _ k => some (effectiveKey k)
  | .spreadElement _ => none

/-- `element.type !== SpreadElement && !element.computed`. -/
def hasNonComputedName : ObjectLiteralElement → Bool
  | .property _ computed _ => !computed
  | .spreadElement _ => false

/-- `!elements.some((e) => !hasNonComputedName(e))`. -/
def allHaveNonComputedNames (elements : List ObjectLiteralElement) : Bool :=
  !(elements.any fun e => !hasNonComputedName e)

/-- The Conflict Detector (`noPropertyConflicts`): `false` when either
side holds a spread or computed-key property; otherwise `false` iff some
property of `as` and some property of `bs` share an effective key. -/
def noPropertyConflicts (as bs : List ObjectLiteralElement) : Bool :=
  if !allHaveNonComputedNames as || !allHaveNonComputedNames bs then
    false
  else
    !(as.any fun a => bs.any fun b => elementKey a == elementKey b)

/-- Spec-side reading of a "non-literal" property: a spread element or a
property with a computed key. -/
def isSpreadOrComputed : ObjectLiteralElement → Bool
  | .property _ c _ => c
  | .spreadElement _ => true

/-- The runtime property-name string a key denotes (JS coerces object keys
to strings): used to exhibit distinct effective keys that collide at
runtime. -/
def runtimeName : JsValue → String
  | .str s => s
  | .num n => toString n
  | .bool b => toString b
  | .nullV => "null"

/-- The callee of a `CallExpression`: the rule only distinguishes
`Identifier` callees (whose name it compares to `"css"`). -/
inductive CalleeKind where
  | identifier (name : String)
  | otherCallee
deriving DecidableEq, Repr

/-- A callee node: its source span plus its kind. -/
structure Callee where
  range : Range
  kind : CalleeKind
deriving DecidableEq, Repr

/-- `callee.type === Identifier && callee.name === "css"`. -/
def isCssCallee (c : Callee) : Bool :=
  match c.kind with
  | .identifier n => n == "css"
  | .otherCallee => false

/-- The expression shapes the rule inspects.  `other` covers every node
type the rule does not classify (conditionals, identifiers, ...). -/
inductive Expr where
  | jsxEmpty (range : Range)
  | arrayE (range : Range) (elements : List Expr)
  | callE (range : Range) (callee : Callee) (args : List Expr)
  | objectE (range : Range) (properties : List ObjectLiteralElement)
  | other (range : Range)

/-- Source span of an expression node. -/
def Expr.range : Expr → Range
  | .jsxEmpty r => r
  | .arrayE r _ => r
  | .callE r _ _ => r
  | .objectE r _ => r
  | .other r => r

/-- A `JSXAttribute`'s name: a plain `JSXIdentifier` or a namespaced
name. -/
inductive JSXAttrName where
  | jsxIdentifier (name : String)
  | jsxNamespacedName
deriving DecidableEq, Repr

/-- A `JSXAttribute`'s value: an expression container (`{...}`) or any
other attribute-value form (string literal, ...). -/
inductive JSXAttrValue where
  | expressionContainer (expr : Expr)
  | otherAttrValue

/-- A `JSXAttribute` node: span, name and optional value. -/
structure JSXAttr where
  range : Range
  name : JSXAttrName
  value : Option JSXAttrValue

/-- One diagnostic reported by the rule, tagged by its `messageId` and
carrying the node(s) it was reported on. -/
inductive Report where
  | removeEmptyCssAttribute (attr : JSXAttr)
  | replaceCssCallWithArray (node : Expr)
  | flattenArray (node : Expr)
  | flattenCssCall (node : Expr)
  | removeEmptyObjectFromCssList (node : Expr)
  | combineAdjacentObjects (node nextNode : Expr)

/-- A textual edit operation handed back to the host fixer:
`fixer.remove(x)` or `fixer.replaceText(x, text)`. -/
inductive Edit where
  | remove (r : Range)
  | replaceText (r : Range) (text : String)
deriving DecidableEq, Repr

/-- Span an edit touches. -/
def Edit.range : Edit → Range
  | .remove r => r
  | .replaceText r _ => r

/-- `getCommaAfter`: the nearest punctuator after the node, kept only if
it is a comma. -/
def getCommaAfter (sc : SourceCode) (r : Range) : Option Token :=
  match getTokenAfter sc r isPunctuator with
  | some t => if t.value == TokValue.comma then some t else none
  | none => none

/-- `getTrailingComma`: the first comma between the last element and the
closing token, when both exist. -/
def getTrailingComma (sc : SourceCode) (elements : List Range)
    (closer : Option Token) : Option Token :=
  match elements.getLast?, closer with
  | some lastElement, some c =>
      getFirstTokenBetween sc lastElement c.range (isPunctValue .comma)
  | _, _ => none

/-- An optional sub-edit: emitted only when its token was located. -/
def optEdit (t : Option Token) (mk : Token → Edit) : List Edit :=
  match t with
  | some tok => [mk tok]
  | none => []

/-- Fix of `removeEmptyCssAttribute`: remove the whole attribute. -/
def removeEmptyCssAttributeFix (attr : JSXAttr) : List Edit :=
  [.remove attr.range]

/-- Fix of `replaceCssCallWithArray`: remove the callee, turn `(` into `[`
and `)` into `]`. -/
def replaceCssCallWithArrayFix (sc : SourceCode) (calleeRange nodeRange : Range) :
    List Edit :=
  .remove calleeRange ::
    (optEdit (getTokenAfter sc calleeRange (isPunctValue .lparen))
      (fun t => .replaceText t.range "[") ++
     optEdit (getLastToken sc nodeRange (isPunctValue .rparen))
      (fun t => .replaceText t.range "]"))

/-- Fix of `flattenArray`: remove the brackets, then the comma after the
node (empty array) or the trailing comma inside it (nonempty array). -/
def flattenArrayFix (sc : SourceCode) (nodeRange : Range)
    (elements : List Range) : List Edit :=
  optEdit (getFirstToken sc nodeRange (isPunctValue .lbrack)) (fun t => .remove t.range) ++
  optEdit (getLastToken sc nodeRange (isPunctValue .rbrack)) (fun t => .remove t.range) ++
  (if elements.length == 0 then
    optEdit (getCommaAfter sc nodeRange) (fun t => .remove t.range)
  else
    optEdit (getTrailingComma sc elements (getLastToken sc nodeRange (isPunctValue .rbrack)))
      (fun t => .remove t.range))

/-- Fix of `flattenCssCall`: remove the callee and both parens, then the
comma after the node (no arguments) or the trailing comma inside. -/
def flattenCssCallFix (sc : SourceCode) (calleeRange nodeRange : Range)
    (args : List Range) : List Edit :=
  .remove calleeRange ::
    (optEdit (getTokenAfter sc calleeRange (isPunctValue .lparen))
      (fun t => .remove t.range) ++
     optEdit (getLastToken sc nodeRange (isPunctValue .rparen)) (fun t => .remove t.range) ++
     (if args.length == 0 then
       optEdit (getCommaAfter sc nodeRange) (fun t => .remove t.range)
     else
       optEdit (getTrailingComma sc args (getLastToken sc nodeRange (isPunctValue .rparen)))
         (fun t => .remove t.range)))

/-- Fix of `removeEmptyObjectFromCssList`: remove both braces and the
comma after the object. -/
def removeEmptyObjectFromCssListFix (sc : SourceCode) (nodeRange : Range) :
    List Edit :=
  optEdit (getFirstToken sc nodeRange (isPunctValue .lbrace))
    (fun t => .remove t.range) ++
  optEdit (getLastToken sc nodeRange (isPunctValue .rbrace))
    (fun t => .remove t.range) ++
  optEdit (getCommaAfter sc nodeRange) (fun t => .remove t.range)

/-- Fix of `combineAdjacentObjects`: remove the first object's closing
brace, the comma trailing its last property (if any), and the second
object's opening brace. -/
def combineAdjacentObjectsFix (sc : SourceCode) (nodeRange : Range)
    (properties : List Range) (nextNodeRange : Range) : List Edit :=
  optEdit (getLastToken sc nodeRange (isPunctValue .rbrace)) (fun t => .remove t.range) ++
  optEdit (getTrailingComma sc properties (getLastToken sc nodeRange (isPunctValue .rbrace)))
    (fun t => .remove t.range) ++
  optEdit (getFirstToken sc nextNodeRange (isPunctValue .lbrace))
    (fun t => .remove t.range)

/-- Edits attached to a report's fix, as a pure function of the source. -/
def reportFix (sc : SourceCode) : Report → List Edit
  | .removeEmptyCssAttribute attr => removeEmptyCssAttributeFix attr
  | .replaceCssCallWithArray n =>
      match n with
      | .callE r c _ => replaceCssCallWithArrayFix sc c.range r
      | e => [.remove e.range]
  | .flattenArray n =>
      match n with
      | .arrayE r es => flattenArrayFix sc r (es.map Expr.range)
      | e => [.remove e.range]
  | .flattenCssCall n =>
      match n with
      | .callE r c args => flattenCssCallFix sc c.range r (args.map Expr.range)
      | e => [.remove e.range]
  | .removeEmptyObjectFromCssList n => removeEmptyObjectFromCssListFix sc n.range
  | .combineAdjacentObjects n next =>
      match n with
      | .objectE r props =>
          combineAdjacentObjectsFix sc r (props.map oleRange) next.range
      | e => [.remove e.range]

/-- Loop body of the List Simplifier: the `skipNextNode` flag is `true`
exactly when the previous iteration merged the current item away. -/
def simplifyAux : Bool → List Expr → List Report
  | _, [] => []
  | true, _ :: rest => simplifyAux false rest
  | false, node :: rest =>
    match node with
    | .arrayE r es => .flattenArray (.arrayE r es) :: simplifyAux false rest
    | .callE r c args =>
        if isCssCallee c then
          .flattenCssCall (.callE r c args) :: simplifyAux false rest
        else
          simplifyAux false rest
    | .objectE r props =>
        if props.length == 0 then
          .removeEmptyObjectFromCssList (.objectE r props) :: simplifyAux false rest
        else
          match rest.head? with
          | some (.objectE r2 props2) =>
              if noPropertyConflicts props props2 then
                .combineAdjacentObjects (.objectE r props) (.objectE r2 props2) ::
                  simplifyAux true rest
              else
                simplifyAux false rest
          | _ => simplifyAux false rest
    | .jsxEmpty _ => simplifyAux false rest
    | .other _ => simplifyAux false rest

/-- The List Simplifier (`simplifyCssListLike`): one left-to-right pass;
after a merge the consumed next item is skipped (`skipNextNode`). -/
def simplifyCssListLike (nodes : List Expr) : List Report :=
  simplifyAux false nodes

/-- The `JSXAttribute` visitor: only fires on `css={...}` with an
expression container, then dispatches on the contained expression. -/
def jsxAttributeVisitor (attr : JSXAttr) : List Report :=
  match attr.name, attr.value with
  | .jsxIdentifier n, some (.expressionContainer cssValue) =>
      if n == "css" then
        match cssValue with
        | .jsxEmpty _ => [.removeEmptyCssAttribute attr]
        | .arrayE r es =>
            if es.length == 0 then [.removeEmptyCssAttribute attr]
            else if es.length == 1 then [.flattenArray (.arrayE r es)]
            else simplifyCssListLike es
        | .callE r c args =>
            if isCssCallee c then
              if args.length == 0 then [.removeEmptyCssAttribute attr]
              else if args.length == 1 then [.flattenCssCall (.callE r c args)]
              else [.replaceCssCallWithArray (.callE r c args)]
            else []
        | .objectE _ props =>
            if props.length == 0 then [.removeEmptyCssAttribute attr] else []
        | .other _ => []
      else []
  | _, _ => []

/-- The `CallExpression` visitor: fires on any `css(...)` call and runs
the List Simplifier over its arguments. -/
def callExpressionVisitor (node : Expr) : List Report :=
  match node with
  | .callE _ c args => if isCssCallee c then simplifyCssListLike args else []
  | _ => []

/-- Pairwise disjointness of the spans touched by a list of edits. -/
def editsDisjoint (es : List Edit) : Prop :=
  es.Pairwise (fun a b => a.range.disj b.range)

instance (es : List Edit) : Decidable (editsDisjoint es) := by
  unfold editsDisjoint; infer_instance

/-- End offset of the last element span of a list (0 when empty). -/
def lastStopOf (props : List Range) : Nat :=
  (props.getLast?.map Range.stop).getD 0

/-- Source layout of an object literal with span `r` and property spans
`props`: a one-character `{` token at its start, a one-character `}` token
at its end, and all properties strictly between the two braces, the last
element of `props` ending last. -/
def ObjLayout (sc : SourceCode) (r : Range) (props : List Range) : Prop :=
  r.start + 2 ≤ r.stop ∧
  (∃ t ∈ sc.tokens, t.ttype = TokType.punctuator ∧ t.value = TokValue.lbrace ∧
      t.range = ⟨r.start, r.start + 1⟩) ∧
  (∃ t ∈ sc.tokens, t.ttype = TokType.punctuator ∧ t.value = TokValue.rbrace ∧
      t.range = ⟨r.stop - 1, r.stop⟩) ∧
  (∀ p ∈ props, r.start + 1 ≤ p.start ∧ p.stop + 1 ≤ r.stop) ∧
  (∀ p ∈ props, p.stop ≤ lastStopOf props)

instance (sc : SourceCode) (r : Range) (props : List Range) :
    Decidable (ObjLayout sc r props) := by
  unfold ObjLayout; infer_instance

/-- Tokens surviving a list of edits understood as removals: those whose
span no edit touches. -/
def survivingTokens (sc : SourceCode) (es : List Edit) : List Token :=
  sc.tokens.filter fun t => es.all fun e => decide ((Edit.range e).disj t.range)

/-- A style-list item to which no simplification case of the List
Simplifier applies on its own: not a `List`, not a call to the designated
function, not an empty `ObjectLiteral`. -/
def itemSimplified : Expr → Bool
  | .arrayE _ _ => false
  | .callE _ c _ => !isCssCallee c
  | .objectE _ props => !(props.length == 0)
  | .jsxEmpty _ => true
  | .other _ => true

/-- The merge-adjacent-objects case fires on the pair `(a, b)`. -/
def mergeablePair (a b : Expr) : Bool :=
  match a, b with
  | .objectE _ pa, .objectE _ pb =>
      !(pa.length == 0) && noPropertyConflicts pa pb
  | _, _ => false

/-- An already-simplified style list: every item is simplified on its own
and no adjacent pair is mergeable. -/
def simplifiedList : List Expr → Bool
  | [] => true
  | [x] => itemSimplified x
  | x :: y :: rest =>
      itemSimplified x && !mergeablePair x y && simplifiedList (y :: rest)

/-- Where a report of the List Simplifier can come from: which node of the
list it mentions, the node's shape, and — for a merge — the conditions the
merge case checked. -/
def ReportSource (nodes : List Expr) : Report → Prop
  | .flattenArray n => (∃ r es, n = Expr.arrayE r es) ∧ n ∈ nodes
  | .flattenCssCall n =>
      (∃ r c args, n = Expr.callE r c args ∧ isCssCallee c = true) ∧ n ∈ nodes
  | .removeEmptyObjectFromCssList n => (∃ r, n = Expr.objectE r []) ∧ n ∈ nodes
  | .combineAdjacentObjects a b =>
      (∃ l r, nodes = l ++ a :: b :: r) ∧
      ∃ ra pa rb pb, a = Expr.objectE ra pa ∧ b = Expr.objectE rb pb ∧
        pa ≠ [] ∧ noPropertyConflicts pa pb = true
  | .removeEmptyCssAttribute _ => False
  | .replaceCssCallWithArray _ => False

/-- Concrete token stream for the source text `css([{a: 1}, {b: 2}])`,
used to instantiate the token-level theorems on a real layout. -/
def sampleSource : SourceCode :=
  ⟨[⟨⟨0, 3⟩, .identifier, .otherVal⟩,
    ⟨⟨3, 4⟩, .punctuator, .lparen⟩,
    ⟨⟨4, 5⟩, .punctuator, .lbrack⟩,
    ⟨⟨5, 6⟩, .punctuator, .lbrace⟩,
    ⟨⟨6, 10⟩, .otherTok, .otherVal⟩,
    ⟨⟨10, 11⟩, .punctuator, .rbrace⟩,
    ⟨⟨11, 12⟩, .punctuator, .comma⟩,
    ⟨⟨13, 14⟩, .punctuator, .lbrace⟩,
    ⟨⟨14, 18⟩, .otherTok, .otherVal⟩,
    ⟨⟨18, 19⟩, .punctuator, .rbrace⟩,
    ⟨⟨19, 20⟩, .punctuator, .rbrack⟩,
    ⟨⟨20, 21⟩, .punctuator, .rparen⟩]⟩

theorem hasNonComputedName_eq (e : ObjectLiteralElement) :
    hasNonComputedName e = !isSpreadOrComputed e := by
  cases e <;> rfl

theorem allHaveNonComputedNames_iff (es : List ObjectLiteralElement) :
    allHaveNonComputedNames es = true ↔ ∀ e ∈ es, isSpreadOrComputed e = false := by
  simp only [allHaveNonComputedNames, hasNonComputedName_eq, Bool.not_not,
    Bool.not_eq_true', List.any_eq_false, Bool.not_eq_true]

/-- **C1.** The Conflict Detector returns `false` whenever either side
holds a spread element or a computed-key property; with no such property
it returns `false` exactly when some property of `as` and some property of
`bs` share an effective key (literal value for a literal key, identifier
name otherwise), and `true` in all remaining cases. -/
theorem noPropertyConflicts_correct (as bs : List ObjectLiteralElement) :
    ((∃ e ∈ as ++ bs, isSpreadOrComputed e = true) →
        noPropertyConflicts as bs = false) ∧
    ((∀ e ∈ as ++ bs, isSpreadOrComputed e = false) →
      ((noPropertyConflicts as bs = false ↔
          ∃ a ∈ as, ∃ b ∈ bs, elementKey a = elementKey b) ∧
       (noPropertyConflicts as bs = true ↔
          ¬ ∃ a ∈ as, ∃ b ∈ bs, elementKey a = elementKey b))) := by
  constructor
  · rintro ⟨e, he, hsc⟩
    unfold noPropertyConflicts
    rcases List.mem_append.mp he with h | h
    · have : allHaveNonComputedNames as = false := by
        rw [Bool.eq_false_iff]
        intro hall
        have := (allHaveNonComputedNames_iff as).mp hall e h
        simp [this] at hsc
      simp [this]
    · have : allHaveNonComputedNames bs = false := by
        rw [Bool.eq_false_iff]
        intro hall
        have := (allHaveNonComputedNames_iff bs).mp hall e h
        simp [this] at hsc
      simp [this]
  · intro hall
    have ha : allHaveNonComputedNames as = true :=
      (allHaveNonComputedNames_iff as).mpr fun e he =>
        hall e (List.mem_append.mpr (Or.inl he))
    have hb : allHaveNonComputedNames bs = true :=
      (allHaveNonComputedNames_iff bs).mpr fun e he =>
        hall e (List.mem_append.mpr (Or.inr he))
    have hgoal : noPropertyConflicts as bs =
        !(as.any fun a => bs.any fun b => elementKey a == elementKey b) := by
      unfold noPropertyConflicts
      simp [ha, hb]
    have h1 : noPropertyConflicts as bs = false ↔
        ∃ a ∈ as, ∃ b ∈ bs, elementKey a = elementKey b := by
      rw [hgoal]
      simp only [Bool.not_eq_false', List.any_eq_true, beq_iff_eq]
    refine ⟨h1, ?_, ?_⟩
    · intro ht hex
      rw [h1.mpr hex] at ht
      cases ht
    · intro hnex
      cases hcase : noPropertyConflicts as bs with
      | true => rfl
      | false => exact absurd (h1.mp hcase) hnex

/-- Witness for `noPropertyConflicts_correct` at concrete inputs: a spread
on the left forces `false`; spread-free sides with the shared effective
key `"color"` (a string-literal key against an identifier key) give
`false`; spread-free sides with distinct keys give `true`. -/
theorem noPropertyConflicts_correct_witness :
    noPropertyConflicts
      [ObjectLiteralElement.spreadElement ⟨1, 5⟩]
      [ObjectLiteralElement.property ⟨8, 16⟩ false (.identKey "color")] = false ∧
    noPropertyConflicts
      [ObjectLiteralElement.property ⟨1, 12⟩ false (.litKey (.str "color"))]
      [ObjectLiteralElement.property ⟨15, 26⟩ false (.identKey "color")] = false ∧
    noPropertyConflicts
      [ObjectLiteralElement.property ⟨1, 12⟩ false (.identKey "color")]
      [ObjectLiteralElement.property ⟨15, 26⟩ false (.identKey "background")] = true := by
  refine ⟨?_, ?_, ?_⟩
  · exact (noPropertyConflicts_correct _ _).1
      ⟨ObjectLiteralElement.spreadElement ⟨1, 5⟩, by simp, rfl⟩
  · refine ((noPropertyConflicts_correct _ _).2 (by simp [isSpreadOrComputed])).1.mpr ?_
    exact ⟨ObjectLiteralElement.property ⟨1, 12⟩ false (.litKey (.str "color")), by simp,
      ObjectLiteralElement.property ⟨15, 26⟩ false (.identKey "color"), by simp, rfl⟩
  · refine (((noPropertyConflicts_correct _ _).2 (by simp [isSpreadOrComputed])).2).mpr ?_
    rintro ⟨a, ha, b, hb, hk⟩
    simp_all [elementKey, effectiveKey]

/-- **C10.** Effective keys are compared with strict, type-sensitive
equality and never normalized to their runtime property-name string: the
numeric-literal key `1` and the string-literal key `"1"` denote the same
runtime property name yet do not conflict, so `canMerge` returns `true`
and the List Simplifier proposes merging the two objects. -/
theorem strictKeyEquality_merge_proposed :
    runtimeName (effectiveKey (.litKey (.num 1))) =
      runtimeName (effectiveKey (.litKey (.str "1"))) ∧
    effectiveKey (.litKey (.num 1)) ≠ effectiveKey (.litKey (.str "1")) ∧
    noPropertyConflicts
      [ObjectLiteralElement.property ⟨2, 6⟩ false (.litKey (.num 1))]
      [ObjectLiteralElement.property ⟨11, 19⟩ false (.litKey (.str "1"))] = true ∧
    simplifyCssListLike
      [Expr.objectE ⟨1, 7⟩ [ObjectLiteralElement.property ⟨2, 6⟩ false (.litKey (.num 1))],
       Expr.objectE ⟨10, 20⟩ [ObjectLiteralElement.property ⟨11, 19⟩ false (.litKey (.str "1"))]] =
      [Report.combineAdjacentObjects
        (Expr.objectE ⟨1, 7⟩ [ObjectLiteralElement.property ⟨2, 6⟩ false (.litKey (.num 1))])
        (Expr.objectE ⟨10, 20⟩ [ObjectLiteralElement.property ⟨11, 19⟩ false (.litKey (.str "1"))])] := by
  exact ⟨rfl, by decide, by decide, rfl⟩

theorem reportSource_lift {node : Expr} {rest : List Expr} {rep : Report}
    (h : ReportSource rest rep) : ReportSource (node :: rest) rep := by
  cases rep with
  | flattenArray n => exact ⟨h.1, List.mem_cons_of_mem _ h.2⟩
  | flattenCssCall n => exact ⟨h.1, List.mem_cons_of_mem _ h.2⟩
  | removeEmptyObjectFromCssList n => exact ⟨h.1, List.mem_cons_of_mem _ h.2⟩
  | combineAdjacentObjects a b =>
      obtain ⟨⟨l, r, hlr⟩, hrest⟩ := h
      exact ⟨⟨node :: l, r, by simp [hlr]⟩, hrest⟩
  | removeEmptyCssAttribute attr => exact h
  | replaceCssCallWithArray n => exact h

theorem simplifyAux_mem_shape :
    ∀ (nodes : List Expr) (skip : Bool) (rep : Report),
      rep ∈ simplifyAux skip nodes → ReportSource nodes rep := by
  intro nodes
  induction nodes with
  | nil => intro skip rep h; cases skip <;> simp [simplifyAux] at h
  | cons node rest ih =>
    intro skip rep h
    cases skip with
    | true => exact reportSource_lift (ih false rep h)
    | false =>
      cases node with
      | arrayE r es =>
        rcases List.mem_cons.mp h with heq | hmem
        · subst heq; exact ⟨⟨r, es, rfl⟩, List.mem_cons_self _ _⟩
        · exact reportSource_lift (ih false rep hmem)
      | callE r c args =>
        by_cases hc : isCssCallee c
        · rw [show simplifyAux false (Expr.callE r c args :: rest) =
              Report.flattenCssCall (Expr.callE r c args) :: simplifyAux false rest by
            simp [simplifyAux, hc]] at h
          rcases List.mem_cons.mp h with heq | hmem
          · subst heq; exact ⟨⟨r, c, args, rfl, hc⟩, List.mem_cons_self _ _⟩
          · exact reportSource_lift (ih false rep hmem)
        · rw [show simplifyAux false (Expr.callE r c args :: rest) =
              simplifyAux false rest by simp [simplifyAux, hc]] at h
          exact reportSource_lift (ih false rep h)
      | objectE r props =>
        by_cases hp : props.length = 0
        · have hp0 : props = [] := List.length_eq_zero.mp hp
          subst hp0
          rcases List.mem_cons.mp h with heq | hmem
          · subst heq; exact ⟨⟨r, rfl⟩, List.mem_cons_self _ _⟩
          · exact reportSource_lift (ih false rep hmem)
        · have hpb : (props.length == 0) = false := by
            simpa using hp
          cases rest with
          | nil =>
              rw [show simplifyAux false [Expr.objectE r props] = [] by
                simp [simplifyAux, hpb]] at h
              simp at h
          | cons next rest2 =>
            cases next with
            | objectE r2 props2 =>
              by_cases hconf : noPropertyConflicts props props2
              · rw [show simplifyAux false
                    (Expr.objectE r props :: Expr.objectE r2 props2 :: rest2) =
                    Report.combineAdjacentObjects (Expr.objectE r props)
                        (Expr.objectE r2 props2) ::
                      simplifyAux true (Expr.objectE r2 props2 :: rest2) by
                  simp [simplifyAux, hpb, hconf]] at h
                rcases List.mem_cons.mp h with heq | hmem
                · subst heq
                  exact ⟨⟨[], rest2, rfl⟩,
                    r, props, r2, props2, rfl, rfl,
                    fun hnil => hp (by simp [hnil]), hconf⟩
                · exact reportSource_lift (ih true rep hmem)
              · rw [show simplifyAux false
                    (Expr.objectE r props :: Expr.objectE r2 props2 :: rest2) =
                    simplifyAux false (Expr.objectE r2 props2 :: rest2) by
                  simp [simplifyAux, hpb, hconf]] at h
                exact reportSource_lift (ih false rep h)
            | arrayE r2 es2 =>
              rw [show simplifyAux false
                  (Expr.objectE r props :: Expr.arrayE r2 es2 :: rest2) =
                  simplifyAux false (Expr.arrayE r2 es2 :: rest2) by
                simp [simplifyAux, hpb]] at h
              exact reportSource_lift (ih false rep h)
            | callE r2 c2 args2 =>
              rw [show simplifyAux false
                  (Expr.objectE r props :: Expr.callE r2 c2 args2 :: rest2) =
                  simplifyAux false (Expr.callE r2 c2 args2 :: rest2) by
                simp [simplifyAux, hpb]] at h
              exact reportSource_lift (ih false rep h)
            | jsxEmpty r2 =>
              rw [show simplifyAux false
                  (Expr.objectE r props :: Expr.jsxEmpty r2 :: rest2) =
                  simplifyAux false (Expr.jsxEmpty r2 :: rest2) by
                simp [simplifyAux, hpb]] at h
              exact reportSource_lift (ih false rep h)
            | other r2 =>
              rw [show simplifyAux false
                  (Expr.objectE r props :: Expr.other r2 :: rest2) =
                  simplifyAux false (Expr.other r2 :: rest2) by
                simp [simplifyAux, hpb]] at h
              exact reportSource_lift (ih false rep h)
      | jsxEmpty r => exact reportSource_lift (ih false rep h)
      | other r => exact reportSource_lift (ih false rep h)

theorem flattenArray_mem_of_mem {r : Range} {es : List Expr} :
    ∀ nodes : List Expr,
      (Expr.arrayE r es ∈ nodes →
        Report.flattenArray (Expr.arrayE r es) ∈ simplifyAux false nodes) ∧
      (Expr.arrayE r es ∈ nodes.tail →
        Report.flattenArray (Expr.arrayE r es) ∈ simplifyAux true nodes) := by
  intro nodes
  induction nodes with
  | nil => exact ⟨fun h => absurd h (List.not_mem_nil _), fun h => absurd h (List.not_mem_nil _)⟩
  | cons node rest ih =>
    constructor
    · intro hmem
      rcases List.mem_cons.mp hmem with heq | hmem2
      · subst heq
        exact List.mem_cons_self _ _
      · clear hmem
        cases node with
        | arrayE r1 es1 => exact List.mem_cons_of_mem _ (ih.1 hmem2)
        | callE r1 c1 args1 =>
          by_cases hc : isCssCallee c1
          · rw [show simplifyAux false (Expr.callE r1 c1 args1 :: rest) =
                Report.flattenCssCall (Expr.callE r1 c1 args1) :: simplifyAux false rest by
              simp [simplifyAux, hc]]
            exact List.mem_cons_of_mem _ (ih.1 hmem2)
          · rw [show simplifyAux false (Expr.callE r1 c1 args1 :: rest) =
                simplifyAux false rest by simp [simplifyAux, hc]]
            exact ih.1 hmem2
        | objectE r1 props1 =>
          by_cases hp : props1.length = 0
          · have hp0 : props1 = [] := List.length_eq_zero.mp hp
            subst hp0
            exact List.mem_cons_of_mem _ (ih.1 hmem2)
          · have hpb : (props1.length == 0) = false := by simpa using hp
            cases rest with
            | nil => simp at hmem2
            | cons next rest2 =>
              cases next with
              | objectE r2 props2 =>
                by_cases hconf : noPropertyConflicts props1 props2
                · rw [show simplifyAux false
                      (Expr.objectE r1 props1 :: Expr.objectE r2 props2 :: rest2) =
                      Report.combineAdjacentObjects (Expr.objectE r1 props1)
                          (Expr.objectE r2 props2) ::
                        simplifyAux true (Expr.objectE r2 props2 :: rest2) by
                    simp [simplifyAux, hpb, hconf]]
                  refine List.mem_cons_of_mem _ (ih.2 ?_)
                  rcases List.mem_cons.mp hmem2 with heq | hmem3
                  · exact absurd heq (by simp)
                  · simpa using hmem3
                · rw [show simplifyAux false
                      (Expr.objectE r1 props1 :: Expr.objectE r2 props2 :: rest2) =
                      simplifyAux false (Expr.objectE r2 props2 :: rest2) by
                    simp [simplifyAux, hpb, hconf]]
                  exact ih.1 hmem2
              | arrayE r2 es2 =>
                rw [show simplifyAux false
                    (Expr.objectE r1 props1 :: Expr.arrayE r2 es2 :: rest2) =
                    simplifyAux false (Expr.arrayE r2 es2 :: rest2) by
                  simp [simplifyAux, hpb]]
                exact ih.1 hmem2
              | callE r2 c2 args2 =>
                rw [show simplifyAux false
                    (Expr.objectE r1 props1 :: Expr.callE r2 c2 args2 :: rest2) =
                    simplifyAux false (Expr.callE r2 c2 args2 :: rest2) by
                  simp [simplifyAux, hpb]]
                exact ih.1 hmem2
              | jsxEmpty r2 =>
                rw [show simplifyAux false
                    (Expr.objectE r1 props1 :: Expr.jsxEmpty r2 :: rest2) =
                    simplifyAux false (Expr.jsxEmpty r2 :: rest2) by
                  simp [simplifyAux, hpb]]
                exact ih.1 hmem2
              | other r2 =>
                rw [show simplifyAux false
                    (Expr.objectE r1 props1 :: Expr.other r2 :: rest2) =
                    simplifyAux false (Expr.other r2 :: rest2) by
                  simp [simplifyAux, hpb]]
                exact ih.1 hmem2
        | jsxEmpty r1 => exact ih.1 hmem2
        | other r1 => exact ih.1 hmem2
    · intro hmem
      rw [show simplifyAux true (node :: rest) = simplifyAux false rest from rfl]
      exact ih.1 (by simpa using hmem)

/-- **C2 counterexample.** The merge case does not require the next item
to be non-empty: on the list `[{color: ...}, {}]` the List Simplifier
proposes combining the non-empty object with the following *empty* object
literal, contradicting the claim that a merge is proposed only when the
next item is a non-empty `ObjectLiteral`. -/
theorem combine_with_empty_next :
    simplifyCssListLike
      [Expr.objectE ⟨0, 14⟩ [ObjectLiteralElement.property ⟨1, 13⟩ false (.identKey "color")],
       Expr.objectE ⟨16, 18⟩ []] =
      [Report.combineAdjacentObjects
        (Expr.objectE ⟨0, 14⟩ [ObjectLiteralElement.property ⟨1, 13⟩ false (.identKey "color")])
        (Expr.objectE ⟨16, 18⟩ [])] := rfl

/-- **C2 (amended).** A combine-adjacent-objects simplification for the
pair `(a, b)` is proposed only if `a` is an `ObjectLiteral` with at least
one property, `b` is the immediately following item and is an
`ObjectLiteral` (possibly empty), and the Conflict Detector allows the
merge. -/
theorem combine_only_adjacent_mergeable (nodes : List Expr) (a b : Expr)
    (h : Report.combineAdjacentObjects a b ∈ simplifyCssListLike nodes) :
    (∃ l r, nodes = l ++ a :: b :: r) ∧
    ∃ ra pa rb pb, a = Expr.objectE ra pa ∧ b = Expr.objectE rb pb ∧
      pa ≠ [] ∧ noPropertyConflicts pa pb = true :=
  simplifyAux_mem_shape nodes false _ h

/-- Witness for `combine_only_adjacent_mergeable` on the concrete list
`[{color: ...}, {background: ...}]`. -/
theorem combine_only_adjacent_mergeable_witness :
    (∃ l r,
      [Expr.objectE ⟨0, 14⟩ [ObjectLiteralElement.property ⟨1, 13⟩ false (.identKey "color")],
       Expr.objectE ⟨16, 35⟩ [ObjectLiteralElement.property ⟨17, 34⟩ false (.identKey "background")]] =
        l ++ Expr.objectE ⟨0, 14⟩ [ObjectLiteralElement.property ⟨1, 13⟩ false (.identKey "color")] ::
          Expr.objectE ⟨16, 35⟩ [ObjectLiteralElement.property ⟨17, 34⟩ false (.identKey "background")] :: r) ∧
    ∃ ra pa rb pb,
      Expr.objectE ⟨0, 14⟩ [ObjectLiteralElement.property ⟨1, 13⟩ false (.identKey "color")] =
        Expr.objectE ra pa ∧
      Expr.objectE ⟨16, 35⟩ [ObjectLiteralElement.property ⟨17, 34⟩ false (.identKey "background")] =
        Expr.objectE rb pb ∧
      pa ≠ [] ∧ noPropertyConflicts pa pb = true :=
  combine_only_adjacent_mergeable _ _ _ (List.mem_cons_self _ _)

/-- **C3 counterexample.** In the List Simplifier a `List`-shaped item is
*always* handed to the flatten-list recipe, regardless of arity: a
two-element nested list is not left unchanged but gets a flatten report,
and a zero-element nested list also gets the flatten report (not the
remove-empty-container report). -/
theorem nested_list_always_flattened :
    simplifyCssListLike [Expr.arrayE ⟨0, 10⟩ [Expr.other ⟨1, 4⟩, Expr.other ⟨6, 9⟩]] =
      [Report.flattenArray (Expr.arrayE ⟨0, 10⟩ [Expr.other ⟨1, 4⟩, Expr.other ⟨6, 9⟩])] ∧
    simplifyCssListLike [Expr.arrayE ⟨0, 2⟩ []] =
      [Report.flattenArray (Expr.arrayE ⟨0, 2⟩ [])] :=
  ⟨rfl, rfl⟩

/-- **C3 (amended).** The List Simplifier reports flatten-list for an item
exactly when that item has `List` shape — whatever its arity: singleton,
multi-element and zero-element nested lists all receive the flatten
recipe (the pass never recurses into the nested list's own children, and
never routes an empty nested list to the remove-empty-container case). -/
theorem flattenArray_mem_iff (nodes : List Expr) (n : Expr) :
    Report.flattenArray n ∈ simplifyCssListLike nodes ↔
      (∃ r es, n = Expr.arrayE r es) ∧ n ∈ nodes := by
  constructor
  · intro h
    exact simplifyAux_mem_shape nodes false _ h
  · rintro ⟨⟨r, es, rfl⟩, hmem⟩
    exact (flattenArray_mem_of_mem nodes).1 hmem

/-- **C9.** The merge case looks exactly one item ahead and consumes two
items per merge: merging the head pair continues the pass after the
consumed item; on three pairwise-mergeable non-empty objects only the
first pair is merged (no chaining); on four, the two disjoint adjacent
pairs are merged. -/
theorem merge_consumes_two
    (ra rb rc rd : Range) (pa pb pc pd : List ObjectLiteralElement) (rest : List Expr)
    (hpa : pa ≠ []) (hpb : pb ≠ []) (hpc : pc ≠ []) (hpd : pd ≠ [])
    (hab : noPropertyConflicts pa pb = true)
    (hac : noPropertyConflicts pa pc = true)
    (had : noPropertyConflicts pa pd = true)
    (hbc : noPropertyConflicts pb pc = true)
    (hbd : noPropertyConflicts pb pd = true)
    (hcd : noPropertyConflicts pc pd = true) :
    simplifyCssListLike (Expr.objectE ra pa :: Expr.objectE rb pb :: rest) =
      Report.combineAdjacentObjects (Expr.objectE ra pa) (Expr.objectE rb pb) ::
        simplifyCssListLike rest ∧
    simplifyCssListLike [Expr.objectE ra pa, Expr.objectE rb pb, Expr.objectE rc pc] =
      [Report.combineAdjacentObjects (Expr.objectE ra pa) (Expr.objectE rb pb)] ∧
    simplifyCssListLike [Expr.objectE ra pa, Expr.objectE rb pb, Expr.objectE rc pc,
        Expr.objectE rd pd] =
      [Report.combineAdjacentObjects (Expr.objectE ra pa) (Expr.objectE rb pb),
       Report.combineAdjacentObjects (Expr.objectE rc pc) (Expr.objectE rd pd)] := by
  have h0a : (pa.length == 0) = false := by
    rw [beq_eq_false_iff_ne]; exact fun h => hpa (List.length_eq_zero.mp h)
  have h0c : (pc.length == 0) = false := by
    rw [beq_eq_false_iff_ne]; exact fun h => hpc (List.length_eq_zero.mp h)
  refine ⟨?_, ?_, ?_⟩ <;>
    simp [simplifyCssListLike, simplifyAux, h0a, h0c, hab, hcd]

/-- Witness for `merge_consumes_two` on four concrete single-property
objects with pairwise distinct keys. -/
theorem merge_consumes_two_witness :
    simplifyCssListLike
        (Expr.objectE ⟨0, 5⟩ [ObjectLiteralElement.property ⟨1, 4⟩ false (.identKey "a")] ::
         Expr.objectE ⟨6, 11⟩ [ObjectLiteralElement.property ⟨7, 10⟩ false (.identKey "b")] :: []) =
      Report.combineAdjacentObjects
          (Expr.objectE ⟨0, 5⟩ [ObjectLiteralElement.property ⟨1, 4⟩ false (.identKey "a")])
          (Expr.objectE ⟨6, 11⟩ [ObjectLiteralElement.property ⟨7, 10⟩ false (.identKey "b")]) ::
        simplifyCssListLike [] ∧
    simplifyCssListLike
        [Expr.objectE ⟨0, 5⟩ [ObjectLiteralElement.property ⟨1, 4⟩ false (.identKey "a")],
         Expr.objectE ⟨6, 11⟩ [ObjectLiteralElement.property ⟨7, 10⟩ false (.identKey "b")],
         Expr.objectE ⟨12, 17⟩ [ObjectLiteralElement.property ⟨13, 16⟩ false (.identKey "c")]] =
      [Report.combineAdjacentObjects
          (Expr.objectE ⟨0, 5⟩ [ObjectLiteralElement.property ⟨1, 4⟩ false (.identKey "a")])
          (Expr.objectE ⟨6, 11⟩ [ObjectLiteralElement.property ⟨7, 10⟩ false (.identKey "b")])] ∧
    simplifyCssListLike
        [Expr.objectE ⟨0, 5⟩ [ObjectLiteralElement.property ⟨1, 4⟩ false (.identKey "a")],
         Expr.objectE ⟨6, 11⟩ [ObjectLiteralElement.property ⟨7, 10⟩ false (.identKey "b")],
         Expr.objectE ⟨12, 17⟩ [ObjectLiteralElement.property ⟨13, 16⟩ false (.identKey "c")],
         Expr.objectE ⟨18, 23⟩ [ObjectLiteralElement.property ⟨19, 22⟩ false (.identKey "d")]] =
      [Report.combineAdjacentObjects
          (Expr.objectE ⟨0, 5⟩ [ObjectLiteralElement.property ⟨1, 4⟩ false (.identKey "a")])
          (Expr.objectE ⟨6, 11⟩ [ObjectLiteralElement.property ⟨7, 10⟩ false (.identKey "b")]),
       Report.combineAdjacentObjects
          (Expr.objectE ⟨12, 17⟩ [ObjectLiteralElement.property ⟨13, 16⟩ false (.identKey "c")])
          (Expr.objectE ⟨18, 23⟩ [ObjectLiteralElement.property ⟨19, 22⟩ false (.identKey "d")])] :=
  merge_consumes_two ⟨0, 5⟩ ⟨6, 11⟩ ⟨12, 17⟩ ⟨18, 23⟩ _ _ _ _ []
    (by decide) (by decide) (by decide) (by decide)
    (by decide) (by decide) (by decide) (by decide) (by decide) (by decide)

theorem simplified_aux : ∀ nodes : List Expr,
    simplifiedList nodes = true → simplifyAux false nodes = [] := by
  intro nodes
  induction nodes with
  | nil => intro _; rfl
  | cons x rest ih =>
    intro h
    cases rest with
    | nil =>
      have h1 : itemSimplified x = true := by simpa [simplifiedList] using h
      cases x with
      | arrayE r es => simp [itemSimplified] at h1
      | callE r c args =>
        have hc : isCssCallee c = false := by simpa [itemSimplified] using h1
        simp [simplifyAux, hc]
      | objectE r props =>
        have hp : (props.length == 0) = false := by simpa [itemSimplified] using h1
        simp [simplifyAux, hp]
      | jsxEmpty r => rfl
      | other r => rfl
    | cons y rest2 =>
      have h' := h
      simp only [simplifiedList, Bool.and_eq_true] at h'
      obtain ⟨⟨h1, h2⟩, h3⟩ := h'
      have hrest := ih h3
      cases x with
      | arrayE r es => simp [itemSimplified] at h1
      | callE r c args =>
        have hc : isCssCallee c = false := by simpa [itemSimplified] using h1
        rw [show simplifyAux false (Expr.callE r c args :: y :: rest2) =
            simplifyAux false (y :: rest2) by simp [simplifyAux, hc]]
        exact hrest
      | objectE r props =>
        have hp : (props.length == 0) = false := by simpa [itemSimplified] using h1
        cases y with
        | objectE r2 props2 =>
          have hm : mergeablePair (Expr.objectE r props) (Expr.objectE r2 props2) = false := by
            simpa using h2
          have hconf : noPropertyConflicts props props2 = false := by
            simpa [mergeablePair, hp] using hm
          rw [show simplifyAux false
              (Expr.objectE r props :: Expr.objectE r2 props2 :: rest2) =
              simplifyAux false (Expr.objectE r2 props2 :: rest2) by
            simp [simplifyAux, hp, hconf]]
          exact hrest
        | arrayE r2 es2 =>
          rw [show simplifyAux false (Expr.objectE r props :: Expr.arrayE r2 es2 :: rest2) =
              simplifyAux false (Expr.arrayE r2 es2 :: rest2) by simp [simplifyAux, hp]]
          exact hrest
        | callE r2 c2 args2 =>
          rw [show simplifyAux false (Expr.objectE r props :: Expr.callE r2 c2 args2 :: rest2) =
              simplifyAux false (Expr.callE r2 c2 args2 :: rest2) by simp [simplifyAux, hp]]
          exact hrest
        | jsxEmpty r2 =>
          rw [show simplifyAux false (Expr.objectE r props :: Expr.jsxEmpty r2 :: rest2) =
              simplifyAux false (Expr.jsxEmpty r2 :: rest2) by simp [simplifyAux, hp]]
          exact hrest
        | other r2 =>
          rw [show simplifyAux false (Expr.objectE r props :: Expr.other r2 :: rest2) =
              simplifyAux false (Expr.other r2 :: rest2) by simp [simplifyAux, hp]]
          exact hrest
      | jsxEmpty r => exact hrest
      | other r => exact hrest

/-- **C8.** Idempotence of the List Simplifier: on an already-simplified
style list — no `List`-shaped item, no call to the designated function,
no empty `ObjectLiteral`, and no mergeable adjacent object pair — the pass
emits no diagnostics, and hence no edits for any source snapshot. -/
theorem simplified_no_reports (nodes : List Expr)
    (h : simplifiedList nodes = true) :
    simplifyCssListLike nodes = [] ∧
    ∀ sc : SourceCode, ((simplifyCssListLike nodes).map (reportFix sc)).flatten = [] := by
  have h0 : simplifyAux false nodes = [] := simplified_aux nodes h
  exact ⟨by simp [simplifyCssListLike, h0], fun sc => by simp [simplifyCssListLike, h0]⟩

/-- Witness for `simplified_no_reports`: two adjacent objects sharing the
key `color` (not mergeable) followed by an unclassified expression. -/
theorem simplified_no_reports_witness :
    simplifyCssListLike
      [Expr.objectE ⟨0, 14⟩ [ObjectLiteralElement.property ⟨1, 13⟩ false (.identKey "color")],
       Expr.objectE ⟨16, 30⟩ [ObjectLiteralElement.property ⟨17, 29⟩ false (.identKey "color")],
       Expr.other ⟨32, 36⟩] = [] ∧
    ((simplifyCssListLike
      [Expr.objectE ⟨0, 14⟩ [ObjectLiteralElement.property ⟨1, 13⟩ false (.identKey "color")],
       Expr.objectE ⟨16, 30⟩ [ObjectLiteralElement.property ⟨17, 29⟩ false (.identKey "color")],
       Expr.other ⟨32, 36⟩]).map (reportFix ⟨[]⟩)).flatten = [] :=
  ⟨(simplified_no_reports _ (by decide)).1,
   (simplified_no_reports _ (by decide)).2 ⟨[]⟩⟩

/-- **C5 counterexample.** A zero-argument call whose callee is not the
designated `css` identifier does *not* trigger removal of the attribute:
on `css={foo()}` the visitor reports nothing, contradicting the claim
that any zero-argument `Call` value leads to remove-empty-container. -/
theorem emptyCall_nonCss_not_removed :
    jsxAttributeVisitor ⟨⟨0, 16⟩, .jsxIdentifier "css",
      some (.expressionContainer
        (Expr.callE ⟨5, 10⟩ ⟨⟨5, 8⟩, .identifier "foo"⟩ []))⟩ = [] := rfl

/-- **C5 (amended).** At the attribute entry point — the attribute named
`css` whose value is an expression container — the whole attribute is
reported for removal whenever the value is an empty marker, an empty
`List`, a zero-argument `Call` *whose callee is the designated `css`
identifier*, or an empty `ObjectLiteral`. -/
theorem emptyValue_removes_attribute (attr : JSXAttr) (e : Expr)
    (hname : attr.name = .jsxIdentifier "css")
    (hvalue : attr.value = some (.expressionContainer e))
    (hempty : (∃ r, e = Expr.jsxEmpty r) ∨ (∃ r, e = Expr.arrayE r []) ∨
      (∃ r c, e = Expr.callE r c [] ∧ isCssCallee c = true) ∨
      (∃ r, e = Expr.objectE r [])) :
    jsxAttributeVisitor attr = [Report.removeEmptyCssAttribute attr] := by
  rcases hempty with ⟨r, rfl⟩ | ⟨r, rfl⟩ | ⟨r, c, rfl, hc⟩ | ⟨r, rfl⟩ <;>
    simp [jsxAttributeVisitor, hname, hvalue, *]

/-- Witness for `emptyValue_removes_attribute`: `css={css()}` has its
whole attribute reported for removal. -/
theorem emptyValue_removes_attribute_witness :
    jsxAttributeVisitor ⟨⟨0, 12⟩, .jsxIdentifier "css",
      some (.expressionContainer
        (Expr.callE ⟨5, 10⟩ ⟨⟨5, 8⟩, .identifier "css"⟩ []))⟩ =
      [Report.removeEmptyCssAttribute ⟨⟨0, 12⟩, .jsxIdentifier "css",
        some (.expressionContainer
          (Expr.callE ⟨5, 10⟩ ⟨⟨5, 8⟩, .identifier "css"⟩ []))⟩] :=
  emptyValue_removes_attribute _ _ rfl rfl
    (Or.inr (Or.inr (Or.inl ⟨⟨5, 10⟩, ⟨⟨5, 8⟩, .identifier "css"⟩, rfl, rfl⟩)))

theorem isPunctValue_iff {v : TokValue} {t : Token} :
    isPunctValue v t = true ↔ t.ttype = TokType.punctuator ∧ t.value = v := by
  simp [isPunctValue, Bool.and_eq_true]

theorem head?_filter_facts {l : List Token} {p : Token → Bool} {t : Token}
    (h : (l.filter p).head? = some t) : t ∈ l ∧ p t = true := by
  have hmem : t ∈ l.filter p := List.mem_of_mem_head? (by simp [h])
  exact List.mem_filter.mp hmem

theorem getLast?_filter_facts {l : List Token} {p : Token → Bool} {t : Token}
    (h : (l.filter p).getLast? = some t) : t ∈ l ∧ p t = true := by
  have hmem : t ∈ l.filter p := List.mem_of_mem_getLast? (by simp [h])
  exact List.mem_filter.mp hmem

theorem getFirstToken_some {sc : SourceCode} {r : Range} {f : Token → Bool} {t : Token}
    (h : getFirstToken sc r f = some t) :
    t ∈ sc.tokens ∧ r.start ≤ t.range.start ∧ t.range.stop ≤ r.stop ∧ f t = true := by
  unfold getFirstToken at h
  obtain ⟨hm, hp⟩ := head?_filter_facts h
  simp only [Bool.and_eq_true, decide_eq_true_eq] at hp
  exact ⟨hm, hp.1.1, hp.1.2, hp.2⟩

theorem getLastToken_some {sc : SourceCode} {r : Range} {f : Token → Bool} {t : Token}
    (h : getLastToken sc r f = some t) :
    t ∈ sc.tokens ∧ r.start ≤ t.range.start ∧ t.range.stop ≤ r.stop ∧ f t = true := by
  unfold getLastToken at h
  obtain ⟨hm, hp⟩ := getLast?_filter_facts h
  simp only [Bool.and_eq_true, decide_eq_true_eq] at hp
  exact ⟨hm, hp.1.1, hp.1.2, hp.2⟩

theorem getTokenAfter_some {sc : SourceCode} {r : Range} {f : Token → Bool} {t : Token}
    (h : getTokenAfter sc r f = some t) :
    t ∈ sc.tokens ∧ r.stop ≤ t.range.start ∧ f t = true := by
  unfold getTokenAfter at h
  obtain ⟨hm, hp⟩ := head?_filter_facts h
  simp only [Bool.and_eq_true, decide_eq_true_eq] at hp
  exact ⟨hm, hp.1, hp.2⟩

theorem getFirstTokenBetween_some {sc : SourceCode} {a b : Range} {f : Token → Bool}
    {t : Token} (h : getFirstTokenBetween sc a b f = some t) :
    t ∈ sc.tokens ∧ a.stop ≤ t.range.start ∧ t.range.stop ≤ b.start ∧ f t = true := by
  unfold getFirstTokenBetween at h
  obtain ⟨hm, hp⟩ := head?_filter_facts h
  simp only [Bool.and_eq_true, decide_eq_true_eq] at hp
  exact ⟨hm, hp.1.1, hp.1.2, hp.2⟩

theorem getCommaAfter_some {sc : SourceCode} {r : Range} {t : Token}
    (h : getCommaAfter sc r = some t) :
    t ∈ sc.tokens ∧ r.stop ≤ t.range.start ∧ t.ttype = TokType.punctuator ∧
      t.value = TokValue.comma := by
  unfold getCommaAfter at h
  cases hq : getTokenAfter sc r isPunctuator with
  | none => rw [hq] at h; cases h
  | some u =>
    rw [hq] at h
    by_cases hv : u.value == TokValue.comma
    · simp [hv] at h
      subst h
      obtain ⟨hm, hle, hp⟩ := getTokenAfter_some hq
      exact ⟨hm, hle, by simpa [isPunctuator] using hp, by simpa using hv⟩
    · simp [hv] at h

theorem getTrailingComma_some {sc : SourceCode} {elements : List Range}
    {closer : Option Token} {t : Token}
    (h : getTrailingComma sc elements closer = some t) :
    t ∈ sc.tokens ∧ t.ttype = TokType.punctuator ∧ t.value = TokValue.comma ∧
      ∃ le c, elements.getLast? = some le ∧ closer = some c ∧
        le.stop ≤ t.range.start ∧ t.range.stop ≤ c.range.start := by
  unfold getTrailingComma at h
  cases hl : elements.getLast? with
  | none => rw [hl] at h; cases h
  | some le =>
    cases hc : closer with
    | none => rw [hl, hc] at h; cases h
    | some c =>
      rw [hl, hc] at h
      obtain ⟨hm, h1, h2, hf⟩ := getFirstTokenBetween_some h
      obtain ⟨hp, hv⟩ := isPunctValue_iff.mp hf
      exact ⟨hm, hp, hv, le, c, rfl, rfl, h1, h2⟩

theorem tokens_disj {sc : SourceCode} (hwf : sc.WF) {t1 t2 : Token}
    (h1 : t1 ∈ sc.tokens) (h2 : t2 ∈ sc.tokens) (hne : t1 ≠ t2) :
    t1.range.disj t2.range :=
  hwf.2.2.forall (fun _ _ h => Or.symm h) h1 h2 hne

theorem disj_of_value_ne {sc : SourceCode} (hwf : sc.WF) {t1 t2 : Token}
    (h1 : t1 ∈ sc.tokens) (h2 : t2 ∈ sc.tokens) (hv : t1.value ≠ t2.value) :
    t1.range.disj t2.range :=
  tokens_disj hwf h1 h2 (fun he => hv (by rw [he]))

theorem disj_of_ttype_ne {sc : SourceCode} (hwf : sc.WF) {t1 t2 : Token}
    (h1 : t1 ∈ sc.tokens) (h2 : t2 ∈ sc.tokens) (hv : t1.ttype ≠ t2.ttype) :
    t1.range.disj t2.range :=
  tokens_disj hwf h1 h2 (fun he => hv (by rw [he]))

theorem mem_optEdit {t : Option Token} {mk : Token → Edit} {e : Edit}
    (h : e ∈ optEdit t mk) : ∃ a, t = some a ∧ e = mk a := by
  cases t with
  | none => simp [optEdit] at h
  | some a =>
    simp [optEdit] at h
    exact ⟨a, rfl, h⟩

theorem pairwise_disj_opt3 {sc : SourceCode} (hwf : sc.WF)
    (t1 t2 t3 : Option Token) (m1 m2 m3 : Token → Edit) (v1 v2 v3 : TokValue)
    (hm1 : ∀ a, (m1 a).range = a.range) (hm2 : ∀ a, (m2 a).range = a.range)
    (hm3 : ∀ a, (m3 a).range = a.range)
    (h1 : ∀ a, t1 = some a → a ∈ sc.tokens ∧ a.value = v1)
    (h2 : ∀ a, t2 = some a → a ∈ sc.tokens ∧ a.value = v2)
    (h3 : ∀ a, t3 = some a → a ∈ sc.tokens ∧ a.value = v3)
    (h12 : v1 ≠ v2) (h13 : v1 ≠ v3) (h23 : v2 ≠ v3) :
    editsDisjoint (optEdit t1 m1 ++ optEdit t2 m2 ++ optEdit t3 m3) := by
  have key : ∀ (a b : Token) (va vb : TokValue),
      a ∈ sc.tokens ∧ a.value = va → b ∈ sc.tokens ∧ b.value = vb → va ≠ vb →
      a.range.disj b.range := by
    intro a b va vb ha hb hne
    exact disj_of_value_ne hwf ha.1 hb.1 (by rw [ha.2, hb.2]; exact hne)
  unfold editsDisjoint
  cases t1 with
  | none =>
    cases t2 with
    | none =>
      cases t3 <;> simp [optEdit, List.pairwise_cons]
    | some b =>
      cases t3 with
      | none => simp [optEdit, List.pairwise_cons]
      | some c =>
        simp only [optEdit, List.nil_append, List.singleton_append, List.pairwise_cons]
        exact ⟨fun e he => by
          simp at he; subst he
          rw [hm2, hm3]; exact key b c v2 v3 (h2 b rfl) (h3 c rfl) h23,
          by simp [List.pairwise_cons]⟩
  | some a =>
    cases t2 with
    | none =>
      cases t3 with
      | none => simp [optEdit, List.pairwise_cons]
      | some c =>
        simp only [optEdit, List.append_nil, List.nil_append, List.singleton_append,
          List.pairwise_cons]
        exact ⟨fun e he => by
          simp at he; subst he
          rw [hm1, hm3]; exact key a c v1 v3 (h1 a rfl) (h3 c rfl) h13,
          by simp [List.pairwise_cons]⟩
    | some b =>
      cases t3 with
      | none =>
        simp only [optEdit, List.append_nil, List.singleton_append, List.pairwise_cons]
        exact ⟨fun e he => by
          simp at he; subst he
          rw [hm1, hm2]; exact key a b v1 v2 (h1 a rfl) (h2 b rfl) h12,
          by simp [List.pairwise_cons]⟩
      | some c =>
        simp only [optEdit, List.singleton_append, List.cons_append, List.nil_append,
          List.pairwise_cons]
        refine ⟨fun e he => ?_, fun e he => ?_, by simp [List.pairwise_cons]⟩
        · rcases List.mem_cons.mp he with rfl | he2
          · rw [hm1, hm2]; exact key a b v1 v2 (h1 a rfl) (h2 b rfl) h12
          · simp at he2; subst he2
            rw [hm1, hm3]; exact key a c v1 v3 (h1 a rfl) (h3 c rfl) h13
        · simp at he; subst he
          rw [hm2, hm3]; exact key b c v2 v3 (h2 b rfl) (h3 c rfl) h23

theorem pairwise_disj_opt2 {sc : SourceCode} (hwf : sc.WF)
    (t1 t2 : Option Token) (m1 m2 : Token → Edit) (v1 v2 : TokValue)
    (hm1 : ∀ a, (m1 a).range = a.range) (hm2 : ∀ a, (m2 a).range = a.range)
    (h1 : ∀ a, t1 = some a → a ∈ sc.tokens ∧ a.value = v1)
    (h2 : ∀ a, t2 = some a → a ∈ sc.tokens ∧ a.value = v2)
    (h12 : v1 ≠ v2) :
    editsDisjoint (optEdit t1 m1 ++ optEdit t2 m2) := by
  cases t1 with
  | none =>
    cases t2 with
    | none => simp [optEdit, editsDisjoint]
    | some b => simp [optEdit, editsDisjoint]
  | some a =>
    cases t2 with
    | none => simp [optEdit, editsDisjoint]
    | some b =>
      unfold editsDisjoint
      simp only [optEdit, List.singleton_append, List.pairwise_cons, List.mem_singleton]
      refine ⟨fun e he => ?_, by simp [List.pairwise_cons]⟩
      subst he
      rw [hm1, hm2]
      have ha := h1 a rfl
      have hb := h2 b rfl
      exact disj_of_value_ne hwf ha.1 hb.1 (by rw [ha.2, hb.2]; exact h12)

theorem editsDisjoint_cons_remove {sc : SourceCode} (hwf : sc.WF) {cr : Range}
    {tail : List Edit}
    (hct : ∃ ct ∈ sc.tokens, ct.range = cr ∧ ct.ttype = TokType.identifier)
    (htail : ∀ e ∈ tail, ∃ t ∈ sc.tokens,
      t.ttype = TokType.punctuator ∧ Edit.range e = t.range)
    (hdisj : editsDisjoint tail) :
    editsDisjoint (Edit.remove cr :: tail) := by
  obtain ⟨ct, hm, hr, ht⟩ := hct
  refine List.Pairwise.cons ?_ hdisj
  intro e he
  obtain ⟨t, htm, htp, hte⟩ := htail e he
  have hcr : (Edit.remove cr).range = ct.range := by simp [Edit.range, hr]
  rw [hcr, hte]
  exact disj_of_ttype_ne hwf hm htm (by rw [ht, htp]; decide)

theorem flattenArrayFix_disjoint (sc : SourceCode) (hwf : sc.WF) (nr : Range)
    (elems : List Range) : editsDisjoint (flattenArrayFix sc nr elems) := by
  unfold flattenArrayFix
  by_cases he : (elems.length == 0) = true
  · rw [if_pos he]
    refine pairwise_disj_opt3 hwf _ _ _ _ _ _ TokValue.lbrack TokValue.rbrack TokValue.comma
      (fun a => rfl) (fun a => rfl) (fun a => rfl) ?_ ?_ ?_ (by decide) (by decide) (by decide)
    · intro a ha
      obtain ⟨hm, _, _, hf⟩ := getFirstToken_some ha
      exact ⟨hm, (isPunctValue_iff.mp hf).2⟩
    · intro a ha
      obtain ⟨hm, _, _, hf⟩ := getLastToken_some ha
      exact ⟨hm, (isPunctValue_iff.mp hf).2⟩
    · intro a ha
      obtain ⟨hm, _, _, hv⟩ := getCommaAfter_some ha
      exact ⟨hm, hv⟩
  · rw [if_neg he]
    refine pairwise_disj_opt3 hwf _ _ _ _ _ _ TokValue.lbrack TokValue.rbrack TokValue.comma
      (fun a => rfl) (fun a => rfl) (fun a => rfl) ?_ ?_ ?_ (by decide) (by decide) (by decide)
    · intro a ha
      obtain ⟨hm, _, _, hf⟩ := getFirstToken_some ha
      exact ⟨hm, (isPunctValue_iff.mp hf).2⟩
    · intro a ha
      obtain ⟨hm, _, _, hf⟩ := getLastToken_some ha
      exact ⟨hm, (isPunctValue_iff.mp hf).2⟩
    · intro a ha
      obtain ⟨hm, _, hv, _⟩ := getTrailingComma_some ha
      exact ⟨hm, hv⟩

theorem removeEmptyObjectFix_disjoint (sc : SourceCode) (hwf : sc.WF) (nr : Range) :
    editsDisjoint (removeEmptyObjectFromCssListFix sc nr) := by
  unfold removeEmptyObjectFromCssListFix
  refine pairwise_disj_opt3 hwf _ _ _ _ _ _ TokValue.lbrace TokValue.rbrace TokValue.comma
    (fun a => rfl) (fun a => rfl) (fun a => rfl) ?_ ?_ ?_ (by decide) (by decide) (by decide)
  · intro a ha
    obtain ⟨hm, _, _, hf⟩ := getFirstToken_some ha
    exact ⟨hm, (isPunctValue_iff.mp hf).2⟩
  · intro a ha
    obtain ⟨hm, _, _, hf⟩ := getLastToken_some ha
    exact ⟨hm, (isPunctValue_iff.mp hf).2⟩
  · intro a ha
    obtain ⟨hm, _, _, hv⟩ := getCommaAfter_some ha
    exact ⟨hm, hv⟩

theorem combineAdjacentObjectsFix_disjoint (sc : SourceCode) (hwf : sc.WF)
    (nr : Range) (props : List Range) (nnr : Range) :
    editsDisjoint (combineAdjacentObjectsFix sc nr props nnr) := by
  unfold combineAdjacentObjectsFix
  refine pairwise_disj_opt3 hwf _ _ _ _ _ _ TokValue.rbrace TokValue.comma TokValue.lbrace
    (fun a => rfl) (fun a => rfl) (fun a => rfl) ?_ ?_ ?_ (by decide) (by decide) (by decide)
  · intro a ha
    obtain ⟨hm, _, _, hf⟩ := getLastToken_some ha
    exact ⟨hm, (isPunctValue_iff.mp hf).2⟩
  · intro a ha
    obtain ⟨hm, _, hv, _⟩ := getTrailingComma_some ha
    exact ⟨hm, hv⟩
  · intro a ha
    obtain ⟨hm, _, _, hf⟩ := getFirstToken_some ha
    exact ⟨hm, (isPunctValue_iff.mp hf).2⟩

theorem flattenCssCallFix_disjoint (sc : SourceCode) (hwf : sc.WF)
    (cr nr : Range) (args : List Range)
    (hct : ∃ ct ∈ sc.tokens, ct.range = cr ∧ ct.ttype = TokType.identifier) :
    editsDisjoint (flattenCssCallFix sc cr nr args) := by
  unfold flattenCssCallFix
  refine editsDisjoint_cons_remove hwf hct ?_ ?_
  · intro e he
    rcases List.mem_append.mp he with he1 | he2
    · rcases List.mem_append.mp he1 with he11 | he12
      · obtain ⟨a, ha, rfl⟩ := mem_optEdit he11
        obtain ⟨hm, _, hf⟩ := getTokenAfter_some ha
        exact ⟨a, hm, (isPunctValue_iff.mp hf).1, rfl⟩
      · obtain ⟨a, ha, rfl⟩ := mem_optEdit he12
        obtain ⟨hm, _, _, hf⟩ := getLastToken_some ha
        exact ⟨a, hm, (isPunctValue_iff.mp hf).1, rfl⟩
    · by_cases hz : (args.length == 0) = true
      · rw [if_pos hz] at he2
        obtain ⟨a, ha, rfl⟩ := mem_optEdit he2
        obtain ⟨hm, _, hp, _⟩ := getCommaAfter_some ha
        exact ⟨a, hm, hp, rfl⟩
      · rw [if_neg hz] at he2
        obtain ⟨a, ha, rfl⟩ := mem_optEdit he2
        obtain ⟨hm, hp, _, _⟩ := getTrailingComma_some ha
        exact ⟨a, hm, hp, rfl⟩
  · by_cases hz : (args.length == 0) = true
    · rw [if_pos hz]
      refine pairwise_disj_opt3 hwf _ _ _ _ _ _ TokValue.lparen TokValue.rparen TokValue.comma
        (fun a => rfl) (fun a => rfl) (fun a => rfl) ?_ ?_ ?_ (by decide) (by decide) (by decide)
      · intro a ha
        obtain ⟨hm, _, hf⟩ := getTokenAfter_some ha
        exact ⟨hm, (isPunctValue_iff.mp hf).2⟩
      · intro a ha
        obtain ⟨hm, _, _, hf⟩ := getLastToken_some ha
        exact ⟨hm, (isPunctValue_iff.mp hf).2⟩
      · intro a ha
        obtain ⟨hm, _, _, hv⟩ := getCommaAfter_some ha
        exact ⟨hm, hv⟩
    · rw [if_neg hz]
      refine pairwise_disj_opt3 hwf _ _ _ _ _ _ TokValue.lparen TokValue.rparen TokValue.comma
        (fun a => rfl) (fun a => rfl) (fun a => rfl) ?_ ?_ ?_ (by decide) (by decide) (by decide)
      · intro a ha
        obtain ⟨hm, _, hf⟩ := getTokenAfter_some ha
        exact ⟨hm, (isPunctValue_iff.mp hf).2⟩
      · intro a ha
        obtain ⟨hm, _, _, hf⟩ := getLastToken_some ha
        exact ⟨hm, (isPunctValue_iff.mp hf).2⟩
      · intro a ha
        obtain ⟨hm, _, hv, _⟩ := getTrailingComma_some ha
        exact ⟨hm, hv⟩

theorem replaceCssCallWithArrayFix_disjoint (sc : SourceCode) (hwf : sc.WF)
    (cr nr : Range)
    (hct : ∃ ct ∈ sc.tokens, ct.range = cr ∧ ct.ttype = TokType.identifier) :
    editsDisjoint (replaceCssCallWithArrayFix sc cr nr) := by
  unfold replaceCssCallWithArrayFix
  refine editsDisjoint_cons_remove hwf hct ?_ ?_
  · intro e he
    rcases List.mem_append.mp he with he1 | he2
    · obtain ⟨a, ha, rfl⟩ := mem_optEdit he1
      obtain ⟨hm, _, hf⟩ := getTokenAfter_some ha
      exact ⟨a, hm, (isPunctValue_iff.mp hf).1, rfl⟩
    · obtain ⟨a, ha, rfl⟩ := mem_optEdit he2
      obtain ⟨hm, _, _, hf⟩ := getLastToken_some ha
      exact ⟨a, hm, (isPunctValue_iff.mp hf).1, rfl⟩
  · refine pairwise_disj_opt2 hwf _ _ _ _ TokValue.lparen TokValue.rparen
      (fun a => rfl) (fun a => rfl) ?_ ?_ (by decide)
    · intro a ha
      obtain ⟨hm, _, hf⟩ := getTokenAfter_some ha
      exact ⟨hm, (isPunctValue_iff.mp hf).2⟩
    · intro a ha
      obtain ⟨hm, _, _, hf⟩ := getLastToken_some ha
      exact ⟨hm, (isPunctValue_iff.mp hf).2⟩

/-- **C7.** For every single invocation of an edit recipe on a well-formed
token stream, the source spans of the emitted edit operations are pairwise
disjoint.  (The two call recipes additionally assume that the callee span
is occupied by an identifier token, as it is whenever the recipe fires —
they fire only on calls whose callee is the `css` identifier.) -/
theorem recipe_edit_spans_disjoint (sc : SourceCode) (hwf : sc.WF) :
    (∀ attr : JSXAttr, editsDisjoint (removeEmptyCssAttributeFix attr)) ∧
    (∀ nr : Range, editsDisjoint (removeEmptyObjectFromCssListFix sc nr)) ∧
    (∀ (nr : Range) (elems : List Range), editsDisjoint (flattenArrayFix sc nr elems)) ∧
    (∀ (cr nr : Range) (args : List Range),
      (∃ ct ∈ sc.tokens, ct.range = cr ∧ ct.ttype = TokType.identifier) →
      editsDisjoint (flattenCssCallFix sc cr nr args)) ∧
    (∀ cr nr : Range,
      (∃ ct ∈ sc.tokens, ct.range = cr ∧ ct.ttype = TokType.identifier) →
      editsDisjoint (replaceCssCallWithArrayFix sc cr nr)) ∧
    (∀ (nr : Range) (props : List Range) (nnr : Range),
      editsDisjoint (combineAdjacentObjectsFix sc nr props nnr)) :=
  ⟨fun attr => by simp [removeEmptyCssAttributeFix, editsDisjoint],
   removeEmptyObjectFix_disjoint sc hwf,
   flattenArrayFix_disjoint sc hwf,
   fun cr nr args hct => flattenCssCallFix_disjoint sc hwf cr nr args hct,
   fun cr nr hct => replaceCssCallWithArrayFix_disjoint sc hwf cr nr hct,
   combineAdjacentObjectsFix_disjoint sc hwf⟩

/-- Witness for `recipe_edit_spans_disjoint` on the `sampleSource` token
stream for `css([{a: 1}, {b: 2}])`. -/
theorem recipe_edit_spans_disjoint_witness :
    editsDisjoint (flattenCssCallFix sampleSource ⟨0, 3⟩ ⟨0, 21⟩ [⟨4, 20⟩]) ∧
    editsDisjoint (combineAdjacentObjectsFix sampleSource ⟨5, 11⟩ [⟨6, 10⟩] ⟨13, 19⟩) ∧
    editsDisjoint (flattenArrayFix sampleSource ⟨4, 20⟩ [⟨5, 11⟩, ⟨13, 19⟩]) :=
  ⟨(recipe_edit_spans_disjoint sampleSource (by decide)).2.2.2.1 ⟨0, 3⟩ ⟨0, 21⟩ [⟨4, 20⟩]
      ⟨⟨⟨0, 3⟩, .identifier, .otherVal⟩, by decide, rfl, rfl⟩,
   (recipe_edit_spans_disjoint sampleSource (by decide)).2.2.2.2.2 ⟨5, 11⟩ [⟨6, 10⟩] ⟨13, 19⟩,
   (recipe_edit_spans_disjoint sampleSource (by decide)).2.2.1 ⟨4, 20⟩ [⟨5, 11⟩, ⟨13, 19⟩]⟩

theorem getTrailingComma_none_closer (sc : SourceCode) (elements : List Range) :
    getTrailingComma sc elements none = none := by
  unfold getTrailingComma
  cases elements.getLast? <;> rfl

/-- **C6.** Every edit recipe tolerates a missing expected token: when a
delimiter or separator query returns `none`, only the sub-edit depending
on that token is omitted (a trailing-separator sub-edit depends on the
close delimiter through `getTrailingComma` and is omitted with it), every
remaining sub-edit is still emitted, and the recipe still returns an edit
list (no error).  Stated for all six recipes: `flattenCssCall`,
`replaceCssCallWithArray`, `removeEmptyCssAttribute` (which consults no
token and always emits its single edit), `flattenArray`,
`removeEmptyObjectFromCssList` and `combineAdjacentObjects`. -/
theorem missing_token_partial_fix (sc : SourceCode) (cr nr nnr : Range)
    (args elems props : List Range) (attr : JSXAttr) :
    (Edit.remove cr ∈ flattenCssCallFix sc cr nr args) ∧
    (∀ t, getTokenAfter sc cr (isPunctValue .lparen) = some t →
       Edit.remove t.range ∈ flattenCssCallFix sc cr nr args) ∧
    (∀ t, getLastToken sc nr (isPunctValue .rparen) = some t →
       Edit.remove t.range ∈ flattenCssCallFix sc cr nr args) ∧
    (getTokenAfter sc cr (isPunctValue .lparen) = none →
       flattenCssCallFix sc cr nr args =
         Edit.remove cr ::
           (optEdit (getLastToken sc nr (isPunctValue .rparen))
             (fun t => .remove t.range) ++
            (if args.length == 0 then
              optEdit (getCommaAfter sc nr) (fun t => .remove t.range)
            else
              optEdit (getTrailingComma sc args (getLastToken sc nr (isPunctValue .rparen)))
                (fun t => .remove t.range)))) ∧
    (getLastToken sc nr (isPunctValue .rparen) = none →
       flattenCssCallFix sc cr nr args =
         Edit.remove cr ::
           (optEdit (getTokenAfter sc cr (isPunctValue .lparen))
             (fun t => .remove t.range) ++
            (if args.length == 0 then
              optEdit (getCommaAfter sc nr) (fun t => .remove t.range)
            else []))) ∧
    (Edit.remove cr ∈ replaceCssCallWithArrayFix sc cr nr) ∧
    (getTokenAfter sc cr (isPunctValue .lparen) = none →
       replaceCssCallWithArrayFix sc cr nr =
         Edit.remove cr ::
           optEdit (getLastToken sc nr (isPunctValue .rparen))
             (fun t => .replaceText t.range "]")) ∧
    (getLastToken sc nr (isPunctValue .rparen) = none →
       replaceCssCallWithArrayFix sc cr nr =
         Edit.remove cr ::
           optEdit (getTokenAfter sc cr (isPunctValue .lparen))
             (fun t => .replaceText t.range "[")) ∧
    (removeEmptyCssAttributeFix attr = [Edit.remove attr.range]) ∧
    ((args.length == 0) = true → ∀ t, getCommaAfter sc nr = some t →
       Edit.remove t.range ∈ flattenCssCallFix sc cr nr args) ∧
    ((args.length == 0) = false →
       ∀ t, getTrailingComma sc args (getLastToken sc nr (isPunctValue .rparen)) = some t →
       Edit.remove t.range ∈ flattenCssCallFix sc cr nr args) ∧
    (∀ t, getFirstToken sc nr (isPunctValue .lbrack) = some t →
       Edit.remove t.range ∈ flattenArrayFix sc nr elems) ∧
    (∀ t, getLastToken sc nr (isPunctValue .rbrack) = some t →
       Edit.remove t.range ∈ flattenArrayFix sc nr elems) ∧
    ((elems.length == 0) = true → ∀ t, getCommaAfter sc nr = some t →
       Edit.remove t.range ∈ flattenArrayFix sc nr elems) ∧
    ((elems.length == 0) = false →
       ∀ t, getTrailingComma sc elems (getLastToken sc nr (isPunctValue .rbrack)) = some t →
       Edit.remove t.range ∈ flattenArrayFix sc nr elems) ∧
    (getFirstToken sc nr (isPunctValue .lbrack) = none →
       flattenArrayFix sc nr elems =
         optEdit (getLastToken sc nr (isPunctValue .rbrack)) (fun t => .remove t.range) ++
         (if elems.length == 0 then
           optEdit (getCommaAfter sc nr) (fun t => .remove t.range)
         else
           optEdit (getTrailingComma sc elems (getLastToken sc nr (isPunctValue .rbrack)))
             (fun t => .remove t.range))) ∧
    (getLastToken sc nr (isPunctValue .rbrack) = none →
       flattenArrayFix sc nr elems =
         optEdit (getFirstToken sc nr (isPunctValue .lbrack)) (fun t => .remove t.range) ++
         (if elems.length == 0 then
           optEdit (getCommaAfter sc nr) (fun t => .remove t.range)
         else [])) ∧
    (∀ t, getFirstToken sc nr (isPunctValue .lbrace) = some t →
       Edit.remove t.range ∈ removeEmptyObjectFromCssListFix sc nr) ∧
    (∀ t, getLastToken sc nr (isPunctValue .rbrace) = some t →
       Edit.remove t.range ∈ removeEmptyObjectFromCssListFix sc nr) ∧
    (∀ t, getCommaAfter sc nr = some t →
       Edit.remove t.range ∈ removeEmptyObjectFromCssListFix sc nr) ∧
    (getFirstToken sc nr (isPunctValue .lbrace) = none →
       removeEmptyObjectFromCssListFix sc nr =
         optEdit (getLastToken sc nr (isPunctValue .rbrace)) (fun t => .remove t.range) ++
         optEdit (getCommaAfter sc nr) (fun t => .remove t.range)) ∧
    (getLastToken sc nr (isPunctValue .rbrace) = none →
       removeEmptyObjectFromCssListFix sc nr =
         optEdit (getFirstToken sc nr (isPunctValue .lbrace)) (fun t => .remove t.range) ++
         optEdit (getCommaAfter sc nr) (fun t => .remove t.range)) ∧
    (getCommaAfter sc nr = none →
       removeEmptyObjectFromCssListFix sc nr =
         optEdit (getFirstToken sc nr (isPunctValue .lbrace)) (fun t => .remove t.range) ++
         optEdit (getLastToken sc nr (isPunctValue .rbrace)) (fun t => .remove t.range)) ∧
    (∀ t, getLastToken sc nr (isPunctValue .rbrace) = some t →
       Edit.remove t.range ∈ combineAdjacentObjectsFix sc nr props nnr) ∧
    (∀ t, getTrailingComma sc props (getLastToken sc nr (isPunctValue .rbrace)) = some t →
       Edit.remove t.range ∈ combineAdjacentObjectsFix sc nr props nnr) ∧
    (∀ t, getFirstToken sc nnr (isPunctValue .lbrace) = some t →
       Edit.remove t.range ∈ combineAdjacentObjectsFix sc nr props nnr) ∧
    (getLastToken sc nr (isPunctValue .rbrace) = none →
       combineAdjacentObjectsFix sc nr props nnr =
         optEdit (getFirstToken sc nnr (isPunctValue .lbrace)) (fun t => .remove t.range)) ∧
    (getFirstToken sc nnr (isPunctValue .lbrace) = none →
       combineAdjacentObjectsFix sc nr props nnr =
         optEdit (getLastToken sc nr (isPunctValue .rbrace)) (fun t => .remove t.range) ++
         optEdit (getTrailingComma sc props (getLastToken sc nr (isPunctValue .rbrace)))
           (fun t => .remove t.range)) := by
  refine ⟨List.mem_cons_self _ _, ?_, ?_, ?_, ?_, List.mem_cons_self _ _, ?_, ?_, rfl,
    ?_, ?_, ?_, ?_, ?_, ?_, ?_, ?_, ?_, ?_, ?_, ?_, ?_, ?_, ?_, ?_, ?_, ?_, ?_⟩
  · intro t ht
    unfold flattenCssCallFix
    rw [ht]
    simp [optEdit]
  · intro t ht
    unfold flattenCssCallFix
    rw [ht]
    simp [optEdit]
  · intro hnone
    unfold flattenCssCallFix
    rw [hnone]
    simp [optEdit]
  · intro hnone
    unfold flattenCssCallFix
    rw [hnone, getTrailingComma_none_closer]
    simp [optEdit]
  · intro hnone
    unfold replaceCssCallWithArrayFix
    rw [hnone]
    simp [optEdit]
  · intro hnone
    unfold replaceCssCallWithArrayFix
    rw [hnone]
    simp [optEdit]
  · intro hz t ht
    unfold flattenCssCallFix
    rw [hz, ht]
    simp [optEdit]
  · intro hz t ht
    unfold flattenCssCallFix
    rw [hz, ht]
    simp [optEdit]
  · intro t ht
    unfold flattenArrayFix
    rw [ht]
    simp [optEdit]
  · intro t ht
    unfold flattenArrayFix
    rw [ht]
    simp [optEdit]
  · intro hz t ht
    unfold flattenArrayFix
    rw [hz, ht]
    simp [optEdit]
  · intro hz t ht
    unfold flattenArrayFix
    rw [hz, ht]
    simp [optEdit]
  · intro hnone
    unfold flattenArrayFix
    rw [hnone]
    simp [optEdit]
  · intro hnone
    unfold flattenArrayFix
    rw [hnone, getTrailingComma_none_closer]
    simp [optEdit]
  · intro t ht
    unfold removeEmptyObjectFromCssListFix
    rw [ht]
    simp [optEdit]
  · intro t ht
    unfold removeEmptyObjectFromCssListFix
    rw [ht]
    simp [optEdit]
  · intro t ht
    unfold removeEmptyObjectFromCssListFix
    rw [ht]
    simp [optEdit]
  · intro hnone
    unfold removeEmptyObjectFromCssListFix
    rw [hnone]
    simp [optEdit]
  · intro hnone
    unfold removeEmptyObjectFromCssListFix
    rw [hnone]
    simp [optEdit]
  · intro hnone
    unfold removeEmptyObjectFromCssListFix
    rw [hnone]
    simp [optEdit]
  · intro t ht
    unfold combineAdjacentObjectsFix
    rw [ht]
    simp [optEdit]
  · intro t ht
    unfold combineAdjacentObjectsFix
    rw [ht]
    simp [optEdit]
  · intro t ht
    unfold combineAdjacentObjectsFix
    rw [ht]
    simp [optEdit]
  · intro hnone
    unfold combineAdjacentObjectsFix
    rw [hnone, getTrailingComma_none_closer]
    simp [optEdit]
  · intro hnone
    unfold combineAdjacentObjectsFix
    rw [hnone]
    simp [optEdit]

/-- Witness for `missing_token_partial_fix`: on a token stream holding
only the closing parenthesis, the open-parenthesis sub-edit is omitted
while the callee removal and close-parenthesis sub-edit still come out;
on an empty stream each recipe degrades to its query-free sub-edits with
no error; the empty-object recipe with only a trailing comma still
removes that comma; the merge recipe with only B's open brace still
removes it. -/
theorem missing_token_partial_fix_witness :
    Edit.remove ⟨0, 3⟩ ∈
      flattenCssCallFix ⟨[⟨⟨20, 21⟩, .punctuator, .rparen⟩]⟩ ⟨0, 3⟩ ⟨0, 21⟩ [] ∧
    flattenCssCallFix ⟨[⟨⟨20, 21⟩, .punctuator, .rparen⟩]⟩ ⟨0, 3⟩ ⟨0, 21⟩ [] =
      [Edit.remove ⟨0, 3⟩, Edit.remove ⟨20, 21⟩] ∧
    flattenCssCallFix ⟨[]⟩ ⟨0, 3⟩ ⟨0, 21⟩ [] = [Edit.remove ⟨0, 3⟩] ∧
    replaceCssCallWithArrayFix ⟨[⟨⟨20, 21⟩, .punctuator, .rparen⟩]⟩ ⟨0, 3⟩ ⟨0, 21⟩ =
      [Edit.remove ⟨0, 3⟩, Edit.replaceText ⟨20, 21⟩ "]"] ∧
    removeEmptyCssAttributeFix ⟨⟨0, 21⟩, .jsxIdentifier "css", none⟩ =
      [Edit.remove ⟨0, 21⟩] ∧
    flattenArrayFix ⟨[]⟩ ⟨4, 20⟩ [⟨5, 11⟩] = [] ∧
    removeEmptyObjectFromCssListFix ⟨[⟨⟨11, 12⟩, .punctuator, .comma⟩]⟩ ⟨5, 11⟩ =
      [Edit.remove ⟨11, 12⟩] ∧
    combineAdjacentObjectsFix ⟨[⟨⟨13, 14⟩, .punctuator, .lbrace⟩]⟩ ⟨5, 11⟩ [⟨6, 10⟩] ⟨13, 19⟩ =
      [Edit.remove ⟨13, 14⟩] := by
  obtain ⟨a1, _, _, a4, _, _, a7, _, a9, _⟩ :=
    missing_token_partial_fix ⟨[⟨⟨20, 21⟩, .punctuator, .rparen⟩]⟩ ⟨0, 3⟩ ⟨0, 21⟩ ⟨13, 19⟩
      [] [] [] ⟨⟨0, 21⟩, .jsxIdentifier "css", none⟩
  obtain ⟨_, _, _, b4, _⟩ :=
    missing_token_partial_fix ⟨[]⟩ ⟨0, 3⟩ ⟨0, 21⟩ ⟨13, 19⟩
      [] [] [] ⟨⟨0, 21⟩, .jsxIdentifier "css", none⟩
  obtain ⟨_, _, _, _, _, _, _, _, _, _, _, _, _, _, _, c16, _⟩ :=
    missing_token_partial_fix ⟨[]⟩ ⟨0, 3⟩ ⟨4, 20⟩ ⟨13, 19⟩
      [] [⟨5, 11⟩] [] ⟨⟨0, 21⟩, .jsxIdentifier "css", none⟩
  obtain ⟨_, _, _, _, _, _, _, _, _, _, _, _, _, _, _, _, _, _, _, _, d21, _⟩ :=
    missing_token_partial_fix ⟨[⟨⟨11, 12⟩, .punctuator, .comma⟩]⟩ ⟨0, 3⟩ ⟨5, 11⟩ ⟨13, 19⟩
      [] [] [] ⟨⟨0, 21⟩, .jsxIdentifier "css", none⟩
  obtain ⟨_, _, _, _, _, _, _, _, _, _, _, _, _, _, _, _, _, _, _, _, _, _, _, _, _, _,
      e27, _⟩ :=
    missing_token_partial_fix ⟨[⟨⟨13, 14⟩, .punctuator, .lbrace⟩]⟩ ⟨0, 3⟩ ⟨5, 11⟩ ⟨13, 19⟩
      [] [] [⟨6, 10⟩] ⟨⟨0, 21⟩, .jsxIdentifier "css", none⟩
  exact ⟨a1, a4 rfl, b4 rfl, a7 rfl, a9, c16 rfl, d21 rfl, e27 rfl⟩

@[simp] theorem Range.start_mk (a b : Nat) : (Range.mk a b).start = a := rfl

@[simp] theorem Range.stop_mk (a b : Nat) : (Range.mk a b).stop = b := rfl

theorem head?_min {l : List Token}
    (hs : l.Pairwise (fun a b => a.range.start ≤ b.range.start)) {x : Token}
    (h : l.head? = some x) : ∀ y ∈ l, x.range.start ≤ y.range.start := by
  cases l with
  | nil => cases h
  | cons a l2 =>
    simp at h
    subst h
    intro y hy
    rcases List.mem_cons.mp hy with rfl | hy2
    · exact le_refl _
    · exact (List.pairwise_cons.mp hs).1 y hy2

theorem getLast?_max {l : List Token}
    (hs : l.Pairwise (fun a b => a.range.start ≤ b.range.start)) {x : Token}
    (h : l.getLast? = some x) : ∀ y ∈ l, y.range.start ≤ x.range.start := by
  induction l with
  | nil => cases h
  | cons a l2 ih =>
    cases l2 with
    | nil =>
      simp at h
      subst h
      intro y hy
      simp at hy
      subst hy
      exact le_refl _
    | cons b l3 =>
      rw [List.getLast?_cons_cons] at h
      intro y hy
      rcases List.mem_cons.mp hy with rfl | hy2
      · have hxmem : x ∈ b :: l3 := List.mem_of_mem_getLast? (by simp [h])
        exact (List.pairwise_cons.mp hs).1 x hxmem
      · exact ih (List.pairwise_cons.mp hs).2 h y hy2

theorem eq_of_overlap {sc : SourceCode} (hwf : sc.WF) {t1 t2 : Token}
    (h1 : t1 ∈ sc.tokens) (h2 : t2 ∈ sc.tokens)
    (hov : ¬ t1.range.disj t2.range) : t1 = t2 := by
  by_contra hne
  exact hov (tokens_disj hwf h1 h2 hne)

theorem getLastToken_at_end {sc : SourceCode} (hwf : sc.WF) {r : Range}
    (hr : r.start + 2 ≤ r.stop)
    (hclose : ∃ t ∈ sc.tokens, t.ttype = TokType.punctuator ∧
      t.value = TokValue.rbrace ∧ t.range = ⟨r.stop - 1, r.stop⟩) :
    ∃ cb, getLastToken sc r (isPunctValue .rbrace) = some cb ∧
      cb.range = ⟨r.stop - 1, r.stop⟩ := by
  obtain ⟨tb, htm, htt, htv, htr⟩ := hclose
  have hfilt : tb ∈ sc.tokens.filter fun t =>
      decide (r.start ≤ t.range.start) && decide (t.range.stop ≤ r.stop) &&
        isPunctValue .rbrace t := by
    refine List.mem_filter.mpr ⟨htm, ?_⟩
    simp only [Bool.and_eq_true, decide_eq_true_eq]
    refine ⟨⟨?_, ?_⟩, isPunctValue_iff.mpr ⟨htt, htv⟩⟩
    · rw [htr]; simp only [Range.start_mk]; omega
    · rw [htr]
  cases hq : (sc.tokens.filter fun t =>
      decide (r.start ≤ t.range.start) && decide (t.range.stop ≤ r.stop) &&
        isPunctValue .rbrace t).getLast? with
  | none =>
    rw [List.getLast?_eq_none_iff] at hq
    rw [hq] at hfilt
    cases hfilt
  | some cb =>
    refine ⟨cb, hq, ?_⟩
    have hsorted : (sc.tokens.filter fun t =>
        decide (r.start ≤ t.range.start) && decide (t.range.stop ≤ r.stop) &&
          isPunctValue .rbrace t).Pairwise
        (fun a b => a.range.start ≤ b.range.start) :=
      hwf.2.1.sublist (List.filter_sublist _)
    have hmax := getLast?_max hsorted hq tb hfilt
    have hcbf := List.mem_filter.mp
      (List.mem_of_mem_getLast? (by simp [hq]) :
        cb ∈ sc.tokens.filter fun t =>
          decide (r.start ≤ t.range.start) && decide (t.range.stop ≤ r.stop) &&
            isPunctValue .rbrace t)
    have hcbm : cb ∈ sc.tokens := hcbf.1
    have hcbc := hcbf.2
    simp only [Bool.and_eq_true, decide_eq_true_eq] at hcbc
    have hnem := hwf.1 cb hcbm
    have hstart : cb.range.start = r.stop - 1 := by
      have h1 : tb.range.start ≤ cb.range.start := hmax
      rw [htr] at h1
      simp only [Range.start_mk] at h1
      have h2 : cb.range.stop ≤ r.stop := hcbc.1.2
      omega
    have hstop : cb.range.stop = r.stop := by
      have h2 : cb.range.stop ≤ r.stop := hcbc.1.2
      omega
    cases hcr : cb.range with
    | mk s e =>
      rw [hcr] at hstart hstop
      simp at hstart hstop
      rw [hstart, hstop]

theorem getFirstToken_at_start {sc : SourceCode} (hwf : sc.WF) {r : Range}
    (hr : r.start + 2 ≤ r.stop)
    (hopen : ∃ t ∈ sc.tokens, t.ttype = TokType.punctuator ∧
      t.value = TokValue.lbrace ∧ t.range = ⟨r.start, r.start + 1⟩) :
    ∃ ob, getFirstToken sc r (isPunctValue .lbrace) = some ob ∧
      ob.range = ⟨r.start, r.start + 1⟩ := by
  obtain ⟨tb, htm, htt, htv, htr⟩ := hopen
  have hfilt : tb ∈ sc.tokens.filter fun t =>
      decide (r.start ≤ t.range.start) && decide (t.range.stop ≤ r.stop) &&
        isPunctValue .lbrace t := by
    refine List.mem_filter.mpr ⟨htm, ?_⟩
    simp only [Bool.and_eq_true, decide_eq_true_eq]
    refine ⟨⟨?_, ?_⟩, isPunctValue_iff.mpr ⟨htt, htv⟩⟩
    · rw [htr]
    · rw [htr]; simp only [Range.stop_mk]; omega
  cases hq : (sc.tokens.filter fun t =>
      decide (r.start ≤ t.range.start) && decide (t.range.stop ≤ r.stop) &&
        isPunctValue .lbrace t).head? with
  | none =>
    rw [List.head?_eq_none_iff] at hq
    rw [hq] at hfilt
    cases hfilt
  | some ob =>
    refine ⟨ob, hq, ?_⟩
    have hsorted : (sc.tokens.filter fun t =>
        decide (r.start ≤ t.range.start) && decide (t.range.stop ≤ r.stop) &&
          isPunctValue .lbrace t).Pairwise
        (fun a b => a.range.start ≤ b.range.start) :=
      hwf.2.1.sublist (List.filter_sublist _)
    have hmin := head?_min hsorted hq tb hfilt
    have hobf := List.mem_filter.mp
      (List.mem_of_mem_head? (by simp [hq]) :
        ob ∈ sc.tokens.filter fun t =>
          decide (r.start ≤ t.range.start) && decide (t.range.stop ≤ r.stop) &&
            isPunctValue .lbrace t)
    have hobm : ob ∈ sc.tokens := hobf.1
    have hobc := hobf.2
    simp only [Bool.and_eq_true, decide_eq_true_eq] at hobc
    have hnem := hwf.1 ob hobm
    have hstart : ob.range.start = r.start := by
      have h1 : ob.range.start ≤ tb.range.start := hmin
      rw [htr] at h1
      simp only [Range.start_mk] at h1
      have h2 : r.start ≤ ob.range.start := hobc.1.1
      omega
    have heq : ob = tb := by
      refine eq_of_overlap hwf hobm htm ?_
      intro hd
      rw [htr] at hd
      rcases hd with hd | hd
      · simp at hd; omega
      · simp at hd; omega
    rw [heq, htr]

/-- **C4.** Under the expected object layout (braces at the node's
boundaries, properties strictly inside), merging the adjacent object pair
(A, B) emits exactly: removal of A's close-delimiter token, removal of
the separator token trailing A's last property when present, and removal
of B's open-delimiter token.  Every emitted edit is a pure removal whose
span is disjoint from every property span of A and B (property text is
untouched), and the surviving tokens are a sublist of the original token
stream (relative order of the surviving keys is preserved). -/
theorem combine_fix_exact (sc : SourceCode) (hwf : sc.WF)
    (rA rB : Range) (propsA propsB : List Range)
    (hA : ObjLayout sc rA propsA) (hB : ObjLayout sc rB propsB)
    (hAB : rA.stop ≤ rB.start) :
    (∀ e ∈ combineAdjacentObjectsFix sc rA propsA rB, ∃ rr, e = Edit.remove rr) ∧
    Edit.remove ⟨rA.stop - 1, rA.stop⟩ ∈ combineAdjacentObjectsFix sc rA propsA rB ∧
    Edit.remove ⟨rB.start, rB.start + 1⟩ ∈ combineAdjacentObjectsFix sc rA propsA rB ∧
    (∀ t, getTrailingComma sc propsA (getLastToken sc rA (isPunctValue .rbrace)) = some t →
       Edit.remove t.range ∈ combineAdjacentObjectsFix sc rA propsA rB) ∧
    (∀ e ∈ combineAdjacentObjectsFix sc rA propsA rB,
       e = Edit.remove ⟨rA.stop - 1, rA.stop⟩ ∨
       (∃ t, getTrailingComma sc propsA (getLastToken sc rA (isPunctValue .rbrace)) = some t ∧
          e = Edit.remove t.range) ∨
       e = Edit.remove ⟨rB.start, rB.start + 1⟩) ∧
    (∀ e ∈ combineAdjacentObjectsFix sc rA propsA rB, ∀ p ∈ propsA ++ propsB,
       (Edit.range e).disj p) ∧
    List.Sublist (survivingTokens sc (combineAdjacentObjectsFix sc rA propsA rB))
      sc.tokens := by
  obtain ⟨hrA, hAopen, hAclose, hAprops, hAlast⟩ := hA
  obtain ⟨hrB, hBopen, hBclose, hBprops, hBlast⟩ := hB
  obtain ⟨cb, hcb, hcbr⟩ := getLastToken_at_end hwf hrA hAclose
  obtain ⟨ob, hob, hobr⟩ := getFirstToken_at_start hwf hrB hBopen
  have hfix : combineAdjacentObjectsFix sc rA propsA rB =
      Edit.remove cb.range ::
        (optEdit (getTrailingComma sc propsA (some cb)) (fun t => Edit.remove t.range) ++
         [Edit.remove ob.range]) := by
    unfold combineAdjacentObjectsFix
    rw [hcb, hob]
    simp [optEdit]
  refine ⟨?_, ?_, ?_, ?_, ?_, ?_, ?_⟩
  · intro e he
    rw [hfix] at he
    rcases List.mem_cons.mp he with rfl | he2
    · exact ⟨cb.range, rfl⟩
    rcases List.mem_append.mp he2 with he3 | he4
    · obtain ⟨a, _, rfl⟩ := mem_optEdit he3
      exact ⟨a.range, rfl⟩
    · simp at he4
      subst he4
      exact ⟨ob.range, rfl⟩
  · rw [hfix, ← hcbr]
    exact List.mem_cons_self _ _
  · rw [hfix, ← hobr]
    exact List.mem_cons_of_mem _ (List.mem_append.mpr (Or.inr (List.mem_singleton.mpr rfl)))
  · intro t ht
    rw [hcb] at ht
    rw [hfix, ht]
    exact List.mem_cons_of_mem _ (List.mem_append.mpr (Or.inl (by simp [optEdit])))
  · intro e he
    rw [hfix] at he
    rcases List.mem_cons.mp he with rfl | he2
    · exact Or.inl (by rw [hcbr])
    rcases List.mem_append.mp he2 with he3 | he4
    · obtain ⟨a, ha, rfl⟩ := mem_optEdit he3
      exact Or.inr (Or.inl ⟨a, by rw [hcb]; exact ha, rfl⟩)
    · simp at he4
      subst he4
      exact Or.inr (Or.inr (by rw [hobr]))
  · intro e he p hp
    have hpA : p ∈ propsA → rA.start + 1 ≤ p.start ∧ p.stop + 1 ≤ rA.stop := fun h =>
      hAprops p h
    have hpB : p ∈ propsB → rB.start + 1 ≤ p.start ∧ p.stop + 1 ≤ rB.stop := fun h =>
      hBprops p h
    rw [hfix] at he
    rcases List.mem_cons.mp he with rfl | he2
    · rw [show (Edit.remove cb.range).range = cb.range from rfl, hcbr]
      rcases List.mem_append.mp hp with hp1 | hp2
      · obtain ⟨_, h2⟩ := hpA hp1
        exact Or.inr (by simp only [Range.start_mk]; omega)
      · obtain ⟨h1, _⟩ := hpB hp2
        exact Or.inl (by simp only [Range.stop_mk]; omega)
    · rcases List.mem_append.mp he2 with he3 | he4
      · obtain ⟨a, ha, rfl⟩ := mem_optEdit he3
        obtain ⟨_, _, _, le, c, hle, hcsome, hc1, hc2⟩ := getTrailingComma_some ha
        have hceq : c = cb := by injection hcsome.symm
        subst hceq
        rw [hcbr] at hc2
        simp only [Range.start_mk] at hc2
        rw [show (Edit.remove a.range).range = a.range from rfl]
        rcases List.mem_append.mp hp with hp1 | hp2
        · have hplast : p.stop ≤ lastStopOf propsA := hAlast p hp1
          have hls : lastStopOf propsA = le.stop := by simp [lastStopOf, hle]
          exact Or.inr (by omega)
        · obtain ⟨h1, _⟩ := hpB hp2
          exact Or.inl (by omega)
      · simp at he4
        subst he4
        rw [show (Edit.remove ob.range).range = ob.range from rfl, hobr]
        rcases List.mem_append.mp hp with hp1 | hp2
        · obtain ⟨_, h2⟩ := hpA hp1
          exact Or.inr (by simp only [Range.start_mk]; omega)
        · obtain ⟨h1, _⟩ := hpB hp2
          exact Or.inl (by simp only [Range.stop_mk]; omega)
  · exact List.filter_sublist _

/-- Witness for `combine_fix_exact` on `sampleSource` (the stream for
`css([{a: 1}, {b: 2}])`), merging the objects at `[5,11)` and `[13,19)`. -/
theorem combine_fix_exact_witness :
    Edit.remove ⟨10, 11⟩ ∈
      combineAdjacentObjectsFix sampleSource ⟨5, 11⟩ [⟨6, 10⟩] ⟨13, 19⟩ ∧
    Edit.remove ⟨13, 14⟩ ∈
      combineAdjacentObjectsFix sampleSource ⟨5, 11⟩ [⟨6, 10⟩] ⟨13, 19⟩ ∧
    (∀ e ∈ combineAdjacentObjectsFix sampleSource ⟨5, 11⟩ [⟨6, 10⟩] ⟨13, 19⟩,
       ∀ p ∈ [(⟨6, 10⟩ : Range)] ++ [(⟨14, 18⟩ : Range)], (Edit.range e).disj p) ∧
    List.Sublist (survivingTokens sampleSource
        (combineAdjacentObjectsFix sampleSource ⟨5, 11⟩ [⟨6, 10⟩] ⟨13, 19⟩))
      sampleSource.tokens :=
  ⟨(combine_fix_exact sampleSource (by decide) ⟨5, 11⟩ ⟨13, 19⟩ [⟨6, 10⟩] [⟨14, 18⟩]
      (by decide) (by decide) (by decide)).2.1,
   (combine_fix_exact sampleSource (by decide) ⟨5, 11⟩ ⟨13, 19⟩ [⟨6, 10⟩] [⟨14, 18⟩]
      (by decide) (by decide) (by decide)).2.2.1,
   (combine_fix_exact sampleSource (by decide) ⟨5, 11⟩ ⟨13, 19⟩ [⟨6, 10⟩] [⟨14, 18⟩]
      (by decide) (by decide) (by decide)).2.2.2.2.2.1,
   (combine_fix_exact sampleSource (by decide) ⟨5, 11⟩ ⟨13, 19⟩ [⟨6, 10⟩] [⟨14, 18⟩]
      (by decide) (by decide) (by decide)).2.2.2.2.2.2⟩

end EmotionStyles
